import Mathlib

/-!
Verification of the content transformation pipeline of `mcp-publishflow`
(`src/content_manager.py`), shallowly embedded over `List Char`.

Conventions of the embedding:
* Python strings are `List Char`; byte payloads are `List Nat`.
* External I/O (filesystem, HTTP, the PyYAML and markdown-it libraries, the
  image hosting endpoint) is modelled by explicit environment records whose
  fields are pure functions; one call of the pipeline consults a fixed
  environment, which matches the source's single-call semantics.
* Fallible Python code is embedded as `Except PyExn`; the regex operations
  used by the source (`re.finditer`, `re.sub`, `re.match`, `re.search`) are
  embedded as executable scanners that implement the exact leftmost /
  lazy / greedy backtracking semantics of the concrete patterns appearing
  in the source.
* Several scanners consume a non-structural suffix after a match, so they
  take an explicit fuel argument; fuel `s.length` is always sufficient
  (each step consumes at least one character), and fuel-irrelevance lemmas
  are proved where the theory needs them.
-/

namespace PublishFlow

/-- Python exception values that the embedded slice of the code can raise.
`contentValidationError` is the repository's `ContentValidationError`;
`nameError`, `attributeError` and `typeError` are the interpreter-level
exceptions that dynamically-typed code paths can produce; `timeoutError`
is the plain `asyncio.TimeoutError` (no message) that aiohttp raises
when a request exceeds its total timeout. -/
inductive PyExn where
  | valueError (msg : List Char)
  | contentValidationError (msg : List Char)
  | nameError (name : List Char)
  | attributeError (attr : List Char)
  | typeError (msg : List Char)
  | timeoutError
deriving DecidableEq, Repr

/-! ## Image reference extraction

`process_images` (content_manager.py lines 167-200) scans the body with
`re.finditer(r'!\[(.*?)\]\((.*?)\)', content)`.  The pattern has no DOTALL
flag, so `.` does not match a newline; both groups are lazy.  A match
attempt at a position succeeds iff the text there is
`'!' '[' alt ']' '(' path ')'` where `alt` is the shortest newline-free
prefix that is followed by `](` such that a `)` is reachable without
crossing a newline, and `path` is the shortest such newline-free text
before the next `)`. -/

/-- Lazy `(.*?)\)` of the image pattern: split `cs` at the first `')'`,
failing if a newline comes first (`.` cannot cross it).  Returns the
consumed group and the remainder after the `')'`. -/
def findPath : List Char → Option (List Char × List Char)
  | [] => none
  | c :: cs =>
    if c = ')' then some ([], cs)
    else if c = '\n' then none
    else (findPath cs).map (fun pr => (c :: pr.1, pr.2))

/-- Probe of the literal `\]\(` followed by the lazy path group: succeeds
iff the input starts with `](` and a `)` is reachable from there without
crossing a newline. -/
def probeClose : List Char → Option (List Char × List Char)
  | c1 :: c2 :: cs2 => if c1 = ']' then if c2 = '(' then findPath cs2 else none else none
  | _ => none

/-- Lazy `(.*?)\]\((.*?)\)` of the image pattern: at each position the
regex engine first probes `\]\(` plus a closing `)` (`probeClose`), and
only on probe failure lets the lazy group consume one more (non-newline)
character.  On success returns `(alt, path, rest)` for the shortest
viable `alt`. -/
def findAlt : List Char → Option (List Char × List Char × List Char)
  | [] => none
  | c :: cs =>
    match probeClose (c :: cs) with
    | some pr => some ([], pr.1, pr.2)
    | none =>
      if c = '\n' then none
      else (findAlt cs).map (fun r => (c :: r.1, r.2.1, r.2.2))

/-- Match attempt of `!\[(.*?)\]\((.*?)\)` anchored at the head of the
list; `some (alt, path, rest)` consumes `![alt](path)`. -/
def matchAt : List Char → Option (List Char × List Char × List Char)
  | c1 :: c2 :: cs => if c1 = '!' then if c2 = '[' then findAlt cs else none else none
  | _ => none

/-- Text of an embedded-image occurrence: `![alt](url)`.  For a match
this rebuilds `match.group(0)`; for a successful relocation it is the
`f'![{alt_text}]({new_url})'` of `_process_single_image` line 154. -/
def mkImage (alt url : List Char) : List Char :=
  '!' :: '[' :: alt ++ ']' :: '(' :: url ++ ')' :: []

/-- One `re.finditer` match record: the half-open span `[mstart, mstop)`
it occupies in the body at extraction time, and the two groups. -/
structure ImgMatch where
  mstart : Nat
  mstop : Nat
  alt : List Char
  path : List Char
deriving DecidableEq, Repr

/-- Scanner core of `re.finditer(image_pattern, content)`: try a match at
every position left to right, resuming after the end of each match.
`pos` is the absolute position of the head of `cs`; fuel `cs.length`
suffices since every step consumes at least one character. -/
def findImagesAux : Nat → Nat → List Char → List ImgMatch
  | 0, _, _ => []
  | _ + 1, _, [] => []
  | fuel + 1, pos, c :: cs =>
    match matchAt (c :: cs) with
    | some (alt, path, rest) =>
      let len := alt.length + path.length + 5
      ⟨pos, pos + len, alt, path⟩ :: findImagesAux fuel (pos + len) rest
    | none => findImagesAux fuel (pos + 1) cs

/-- All embedded-image matches of the body, in document order
(`matches = list(re.finditer(image_pattern, content))`, line 185). -/
def findImages (content : List Char) : List ImgMatch :=
  findImagesAux content.length 0 content

/-! ## Per-reference relocation (`_process_single_image`, lines 98-165) -/

/-- Environment of one image-relocation call: scheme detection
(`urlparse(image_path).scheme`), local path resolution and read, remote
GET, PIL verification, and the hosting upload.  `upload` returns `none`
for an HTTP failure, `some none` for a 2xx response whose JSON carries no
`url` field, and `some (some u)` for a returned URL `u`. -/
structure ImgEnv where
  hasScheme : List Char → Bool
  resolveLocal : List Char → List Char
  readLocal : List Char → Option (List Nat)
  httpGet : List Char → Option (List Nat)
  verifyOk : List Nat → Bool
  upload : List Nat → Option (Option (List Char))

/-- Resolution of the reference bytes, lines 120-130: a remote GET when
the locator has a scheme, otherwise a read of the resolved local path;
`none` is the raised-and-caught failure of either branch. -/
def resolvedBytes (env : ImgEnv) (path : List Char) : Option (List Nat) :=
  if env.hasScheme path then env.httpGet path else env.readLocal (env.resolveLocal path)

/-- Relocation of a single reference, lines 112-165.  Every failure of
the four steps (resolve bytes, verify, upload, extract URL) is caught at
this boundary and resolved as `match.group(0)`, i.e. the original text.
Only the groups of the match influence the result, so the span fields
are not consulted. -/
def processSingleImage (env : ImgEnv) (uploadUrlSet : Bool) (m : ImgMatch) : List Char :=
  if uploadUrlSet = false then mkImage m.alt m.path
  else
    match resolvedBytes env m.path with
    | none => mkImage m.alt m.path
    | some d =>
      if env.verifyOk d = false then mkImage m.alt m.path
      else
        match env.upload d with
        | none => mkImage m.alt m.path
        | some none => mkImage m.alt m.path
        | some (some u) => mkImage m.alt u

/-- Span replacement `content = content[:start] + new_markdown + content[end:]`
of line 198. -/
def spliceAt (content : List Char) (s e : Nat) (r : List Char) : List Char :=
  content.take s ++ r ++ content.drop e

/-- Rewrite loop of lines 196-198: fold the span replacements over the
body in the order of the given pair list (the source iterates
`zip(reversed(matches), reversed(processed_images))`, i.e. descending
span-start order). -/
def rewriteDesc (pairs : List (ImgMatch × List Char)) (content : List Char) : List Char :=
  pairs.foldl (fun c mr => spliceAt c mr.1.mstart mr.1.mstop mr.2) content

/-- The image relocation pipeline `process_images` (lines 167-200).
`uploadImages` is the `upload_images` argument and `uploadUrlSet` is the
truthiness of `self.image_upload_url`; `asyncio.gather` returns the task
results in task order, i.e. index-aligned with `matches`. -/
def process_images (env : ImgEnv) (uploadImages uploadUrlSet : Bool)
    (content : List Char) : List Char :=
  if uploadImages = false || uploadUrlSet = false then content
  else
    let ms := findImages content
    if ms.isEmpty then content
    else
      let results := ms.map (processSingleImage env uploadUrlSet)
      rewriteDesc ((ms.zip results).reverse) content

/-! ## Completion-order model for the fan-in (claim C1)

`asyncio.gather(*tasks)` stores each sub-task's outcome in the slot of
the task's index regardless of temporal completion order.  A completion
order is a list of `(task index, outcome)` pairs in arrival order;
`gatherByIndex` rebuilds the index-aligned outcome list from it. -/

/-- Fan-in of `asyncio.gather`: slot `i` of the result receives the
outcome that arrived tagged with index `i`. -/
def gatherByIndex (n : Nat) (completions : List (Nat × List Char)) : List (List Char) :=
  (List.range n).map (fun i => ((completions.lookup i).getD []))

/-- Document-order completion list for a fixed assignment `f` of
per-reference outcomes. -/
def docOrder (n : Nat) (f : Nat → List Char) : List (Nat × List Char) :=
  (List.range n).map (fun i => (i, f i))

/-- The tail of `process_images` run against an explicit completion
order: extract the references, gather the outcomes by index, and apply
the span replacements in descending span-start order. -/
def processImagesWith (content : List Char) (completions : List (Nat × List Char)) :
    List Char :=
  rewriteDesc (((findImages content).zip
    (gatherByIndex (findImages content).length completions)).reverse) content


/-! ## Claim C1: the final body is independent of completion order -/

/-- Looking up a key that is present in an association list with
duplicate-free keys returns its value. -/
theorem lookup_eq_of_mem_of_nodup {l : List (Nat × List Char)} {k : Nat} {v : List Char}
    (hmem : (k, v) ∈ l) (hnd : (l.map Prod.fst).Nodup) : l.lookup k = some v := by
  induction l with
  | nil => cases hmem
  | cons hd tl ih =>
    rcases List.mem_cons.mp hmem with h | h
    · rw [← h]
      simp [List.lookup]
    · rw [List.map_cons] at hnd
      obtain ⟨hhd, hndtl⟩ := List.nodup_cons.mp hnd
      have hk : (k == hd.1) = false := by
        refine beq_eq_false_iff_ne.mpr (fun heq => ?_)
        exact hhd (heq ▸ List.mem_map_of_mem Prod.fst h)
      simp [List.lookup, hk, ih h hndtl]

/-- Any completion order that is a permutation of the document-order
completion list resolves each in-range index to its fixed outcome. -/
theorem lookup_of_perm_docOrder {n : Nat} {f : Nat → List Char}
    {c : List (Nat × List Char)} (hc : c.Perm (docOrder n f)) {i : Nat} (hi : i < n) :
    c.lookup i = some (f i) := by
  have hmem : (i, f i) ∈ c :=
    hc.symm.mem_iff.mp (List.mem_map_of_mem _ (List.mem_range.mpr hi))
  have hnd : (c.map Prod.fst).Nodup := by
    have hperm : (c.map Prod.fst).Perm ((docOrder n f).map Prod.fst) := hc.map Prod.fst
    have hrange : (docOrder n f).map Prod.fst = List.range n := by
      unfold docOrder
      rw [List.map_map]
      have hid : (Prod.fst ∘ fun i => (i, f i)) = id := rfl
      rw [hid, List.map_id]
    exact (hperm.nodup_iff).mpr (hrange ▸ List.nodup_range n)
  exact lookup_eq_of_mem_of_nodup hmem hnd

/-- Gathering any permutation of the document-order completion list
rebuilds the index-aligned outcome list. -/
theorem gatherByIndex_of_perm {n : Nat} {f : Nat → List Char}
    {c : List (Nat × List Char)} (hc : c.Perm (docOrder n f)) :
    gatherByIndex n c = (List.range n).map f := by
  unfold gatherByIndex
  refine List.map_congr_left (fun i hi => ?_)
  rw [lookup_of_perm_docOrder hc (List.mem_range.mp hi)]
  rfl

/-- A pointwise description of an outcome list over reference indices
rebuilds the mapped list itself. -/
theorem range_map_eq_map {α β : Type} (l : List α) (g : α → β) (f : Nat → β)
    (h : ∀ i (hi : i < l.length), f i = g (l.get ⟨i, hi⟩)) :
    (List.range l.length).map f = l.map g := by
  apply List.ext_getElem
  · simp
  · intro i h1 h2
    have hi : i < l.length := by simpa using h2
    simp only [List.getElem_map, List.getElem_range]
    rw [h i hi]
    simp [List.get_eq_getElem]

/-- C1.  For every body and every fixed assignment `f` of per-reference
relocation outcomes, the final body produced by the rewrite step of
`process_images` is byte-identical under any two sub-task completion
orders: outcomes are paired with their originating reference by index
(`gatherByIndex`), span replacements are applied in descending
span-start order, and so any permutation of the completion order —
including the adversarial reversal — produces the same output as
document-order completion; when the fixed outcomes are the ones computed
by `_process_single_image`, that common output is exactly
`process_images`. -/
theorem C1_completion_order_irrelevant (content : List Char) (f : Nat → List Char)
    (env : ImgEnv) (c1 c2 : List (Nat × List Char))
    (h1 : c1.Perm (docOrder (findImages content).length f))
    (h2 : c2.Perm (docOrder (findImages content).length f))
    (hf : ∀ i (hi : i < (findImages content).length),
      f i = processSingleImage env true ((findImages content).get ⟨i, hi⟩)) :
    processImagesWith content c1 = processImagesWith content c2 ∧
    processImagesWith content c1 =
      processImagesWith content (docOrder (findImages content).length f) ∧
    processImagesWith content c1 = process_images env true true content := by
  have e1 := gatherByIndex_of_perm h1
  have e2 := gatherByIndex_of_perm h2
  have e3 := gatherByIndex_of_perm (List.Perm.refl (docOrder (findImages content).length f))
  have hres : (List.range (findImages content).length).map f =
      (findImages content).map (processSingleImage env true) :=
    range_map_eq_map _ _ _ hf
  refine ⟨?_, ?_, ?_⟩
  · unfold processImagesWith
    rw [e1, e2]
  · unfold processImagesWith
    rw [e1, e3]
  · unfold processImagesWith process_images
    rw [e1, hres]
    simp only [Bool.false_eq_true, if_false]
    by_cases hms : (findImages content).isEmpty
    · have hnil : findImages content = [] := List.isEmpty_iff.mp hms
      simp [hnil, rewriteDesc]
    · simp [hms]

/-- Witness for C1 at a concrete two-image body, with the completion
order reversed relative to document order. -/
theorem C1_completion_order_irrelevant_witness :
    processImagesWith ("![a](b) ![c](d)".toList)
        [(1, "![c](u2)".toList), (0, "![a](u1)".toList)] =
      processImagesWith ("![a](b) ![c](d)".toList)
        [(0, "![a](u1)".toList), (1, "![c](u2)".toList)] ∧
    processImagesWith ("![a](b) ![c](d)".toList)
        [(1, "![c](u2)".toList), (0, "![a](u1)".toList)] =
      process_images
        ⟨fun _ => false, id, fun p => some (p.map Char.toNat), fun _ => none,
          fun _ => true,
          fun d => some (some (if d = ("b".toList.map Char.toNat) then "u1".toList
                               else "u2".toList))⟩
        true true ("![a](b) ![c](d)".toList) := by
  have h := C1_completion_order_irrelevant ("![a](b) ![c](d)".toList)
    (fun i => if i = 0 then "![a](u1)".toList else "![c](u2)".toList)
    ⟨fun _ => false, id, fun p => some (p.map Char.toNat), fun _ => none,
      fun _ => true,
      fun d => some (some (if d = ("b".toList.map Char.toNat) then "u1".toList
                           else "u2".toList))⟩
    [(1, "![c](u2)".toList), (0, "![a](u1)".toList)]
    [(0, "![a](u1)".toList), (1, "![c](u2)".toList)]
    (by decide) (by decide) (by decide)
  exact ⟨h.1, h.2.2⟩

/-! ## Structural theory of the image-pattern matcher (towards C2) -/

/-- Newline-freedom: the property of text that the `.` of the non-DOTALL
image pattern can traverse. -/
def NlFree (l : List Char) : Prop := ∀ c ∈ l, c ≠ '\n'

theorem nlFree_nil : NlFree [] := fun c hc => absurd hc (List.not_mem_nil c)

theorem nlFree_cons {c : Char} {l : List Char} (hc : c ≠ '\n') (hl : NlFree l) :
    NlFree (c :: l) := by
  intro x hx
  rcases List.mem_cons.mp hx with rfl | hx
  · exact hc
  · exact hl x hx

theorem nlFree_of_cons {c : Char} {l : List Char} (h : NlFree (c :: l)) :
    c ≠ '\n' ∧ NlFree l :=
  ⟨h c (List.mem_cons_self c l), fun x hx => h x (List.mem_cons_of_mem c hx)⟩

theorem nlFree_append {l1 l2 : List Char} (h1 : NlFree l1) (h2 : NlFree l2) :
    NlFree (l1 ++ l2) := by
  intro x hx
  rcases List.mem_append.mp hx with hx | hx
  · exact h1 x hx
  · exact h2 x hx

theorem nlFree_of_append {l1 l2 : List Char} (h : NlFree (l1 ++ l2)) :
    NlFree l1 ∧ NlFree l2 :=
  ⟨fun x hx => h x (List.mem_append.mpr (Or.inl hx)),
   fun x hx => h x (List.mem_append.mpr (Or.inr hx))⟩

/-- Head/tail injectivity of a cons against a cons-headed append. -/
theorem cons_append_inj {c d : Char} {cs t : List Char}
    (h : c :: cs = d :: t) : c = d ∧ cs = t := by
  injection h with h1 h2
  exact ⟨h1, h2⟩

/-- A successful `findPath` splits its input at the first `')'`; the
consumed group contains neither a newline nor a `')'`. -/
theorem findPath_sound {cs p r : List Char} (h : findPath cs = some (p, r)) :
    cs = p ++ ')' :: r ∧ NlFree p ∧ ')' ∉ p := by
  induction cs generalizing p r with
  | nil => simp [findPath] at h
  | cons c cs ih =>
    by_cases hc : c = ')'
    · subst hc
      simp [findPath] at h
      obtain ⟨h1, h2⟩ := h
      subst h1
      subst h2
      exact ⟨rfl, nlFree_nil, List.not_mem_nil _⟩
    · by_cases hn : c = '\n'
      · simp [findPath, hc, hn] at h
      · simp only [findPath, if_neg hc, if_neg hn, Option.map_eq_some'] at h
        obtain ⟨⟨p', r'⟩, hfp, heq⟩ := h
        obtain ⟨h1, h2⟩ : c :: p' = p ∧ r' = r := by simpa using heq
        subst h1
        subst h2
        obtain ⟨hcs, hnl, hnp⟩ := ih hfp
        subst hcs
        refine ⟨rfl, nlFree_cons hn hnl, ?_⟩
        intro hmem
        rcases List.mem_cons.mp hmem with h1 | h1
        · exact hc h1.symm
        · exact hnp h1

/-- Computation rule of `findPath` on an explicitly split input. -/
theorem findPath_concat {u X : List Char} (hnl : NlFree u) (hnp : ')' ∉ u) :
    findPath (u ++ ')' :: X) = some (u, X) := by
  induction u with
  | nil => simp [findPath]
  | cons c u ih =>
    have hc : ¬ c = ')' := by
      intro h
      subst h
      exact hnp (List.mem_cons_self _ _)
    have hn : ¬ c = '\n' := (nlFree_of_cons hnl).1
    have ih' := ih (nlFree_of_cons hnl).2 (fun hx => hnp (List.mem_cons_of_mem c hx))
    simp [findPath, hc, hn, ih']

/-- Completeness: `findPath` only fails when no newline-free prefix ends
at a `')'`. -/
theorem findPath_none {cs : List Char} (h : findPath cs = none) :
    ∀ p r, cs = p ++ ')' :: r → NlFree p → False := by
  induction cs with
  | nil =>
    intro p r hp _
    cases p <;> simp at hp
  | cons c cs ih =>
    intro p r hcs hnl
    cases p with
    | nil =>
      obtain ⟨h1, h2⟩ := cons_append_inj hcs
      subst h1
      simp [findPath] at h
    | cons d p =>
      obtain ⟨h1, h2⟩ := cons_append_inj hcs
      subst h1
      have hn : ¬ c = '\n' := (nlFree_of_cons hnl).1
      by_cases hc : c = ')'
      · simp [findPath, hc] at h
      · simp only [findPath, if_neg hc, if_neg hn, Option.map_eq_none'] at h
        exact ih h p r h2 (nlFree_of_cons hnl).2

/-- A successful `findAlt` yields the decomposition
`alt ++ ']' '(' path ')' rest` with newline-free groups and a
`)`-free path. -/
theorem findAlt_sound {cs a p r : List Char} (h : findAlt cs = some (a, p, r)) :
    cs = a ++ ']' :: '(' :: p ++ ')' :: r ∧ NlFree a ∧ NlFree p ∧ ')' ∉ p := by
  induction cs generalizing a p r with
  | nil => simp [findAlt] at h
  | cons c cs ih =>
    rcases hp : probeClose (c :: cs) with _ | ⟨p', r'⟩
    · by_cases hn : c = '\n'
      · subst hn
        simp [findAlt, hp] at h
      · simp only [findAlt, hp, if_neg hn, Option.map_eq_some'] at h
        obtain ⟨⟨a', p'', r''⟩, hfa, heq⟩ := h
        obtain ⟨h1, h2, h3⟩ : c :: a' = a ∧ p'' = p ∧ r'' = r := by simpa using heq
        subst h1
        subst h2
        subst h3
        obtain ⟨hcs, hna, hnp, hpp⟩ := ih hfa
        subst hcs
        exact ⟨rfl, nlFree_cons hn hna, hnp, hpp⟩
    · simp only [findAlt, hp, Option.some_inj] at h
      obtain ⟨h1, h2, h3⟩ : ([] : List Char) = a ∧ p' = p ∧ r' = r := by simpa using h
      subst h1
      subst h2
      subst h3
      rcases cs with _ | ⟨c2, cs2⟩
      · simp [probeClose] at hp
      · by_cases h1 : c = ']'
        · by_cases h2 : c2 = '('
          · subst h1
            subst h2
            simp [probeClose] at hp
            obtain ⟨hcs2, hnp, hpp⟩ := findPath_sound hp
            subst hcs2
            exact ⟨rfl, nlFree_nil, hnp, hpp⟩
          · simp [probeClose, h1, h2] at hp
        · simp [probeClose, h1] at hp

/-- Minimality of the lazy first group: any other newline-free
decomposition of the same input has an `alt` at least as long. -/
theorem findAlt_min {cs a p r : List Char} (h : findAlt cs = some (a, p, r)) :
    ∀ a2 p2 r2, cs = a2 ++ ']' :: '(' :: p2 ++ ')' :: r2 → NlFree a2 → NlFree p2 →
      a.length ≤ a2.length := by
  induction cs generalizing a p r with
  | nil => simp [findAlt] at h
  | cons c cs ih =>
    intro a2 p2 r2 hcs hna2 hnp2
    rcases hp : probeClose (c :: cs) with _ | ⟨p', r'⟩
    · cases a2 with
      | nil =>
        obtain ⟨h1, h2⟩ := cons_append_inj hcs
        subst h1
        subst h2
        simp [probeClose] at hp
        exact (findPath_none hp p2 r2 rfl hnp2).elim
      | cons d a2 =>
        obtain ⟨h1, h2⟩ := cons_append_inj hcs
        subst h1
        have hn : ¬ c = '\n' := (nlFree_of_cons hna2).1
        simp only [findAlt, hp, if_neg hn, Option.map_eq_some'] at h
        obtain ⟨⟨a', p'', r''⟩, hfa, heq⟩ := h
        obtain ⟨ha, ha2, ha3⟩ : c :: a' = a ∧ p'' = p ∧ r'' = r := by simpa using heq
        have hle := ih hfa a2 p2 r2 h2 (nlFree_of_cons hna2).2 hnp2
        rw [← ha]
        simp only [List.length_cons]
        omega
    · simp only [findAlt, hp, Option.some_inj] at h
      obtain ⟨ha, ha2, ha3⟩ : ([] : List Char) = a ∧ p' = p ∧ r' = r := by simpa using h
      rw [← ha]
      simp

/-- Completeness of `findAlt`: failure excludes every newline-free
decomposition. -/
theorem findAlt_none {cs : List Char} (h : findAlt cs = none) :
    ∀ a p r, cs = a ++ ']' :: '(' :: p ++ ')' :: r → NlFree a → NlFree p → False := by
  induction cs with
  | nil =>
    intro a p r ha _ _
    cases a <;> simp at ha
  | cons c cs ih =>
    intro a p r hcs hna hnp
    rcases hp : probeClose (c :: cs) with _ | pr
    · cases a with
      | nil =>
        obtain ⟨h1, h2⟩ := cons_append_inj hcs
        subst h1
        subst h2
        simp [probeClose] at hp
        exact findPath_none hp p r rfl hnp
      | cons d a =>
        obtain ⟨h1, h2⟩ := cons_append_inj hcs
        subst h1
        have hn : ¬ c = '\n' := (nlFree_of_cons hna).1
        simp only [findAlt, hp, if_neg hn, Option.map_eq_none'] at h
        exact ih h a p r h2 (nlFree_of_cons hna).2 hnp
    · simp [findAlt, hp] at h

/-- Length of a rebuilt image occurrence. -/
theorem mkImage_length (a u : List Char) :
    (mkImage a u).length = a.length + u.length + 5 := by
  simp only [mkImage, List.length_append, List.length_cons, List.length_nil]
  omega

/-- A rebuilt image occurrence is newline-free when its groups are. -/
theorem nlFree_mkImage {a u : List Char} (ha : NlFree a) (hu : NlFree u) :
    NlFree (mkImage a u) :=
  nlFree_cons (by decide) (nlFree_cons (by decide)
    (nlFree_append (nlFree_append ha (nlFree_cons (by decide) (nlFree_cons (by decide) hu)))
      (nlFree_cons (by decide) nlFree_nil)))

/-- Soundness of a match attempt: success consumes exactly
`![alt](path)` with newline-free groups and a `)`-free path. -/
theorem matchAt_sound {s a p r : List Char} (h : matchAt s = some (a, p, r)) :
    s = mkImage a p ++ r ∧ NlFree a ∧ NlFree p ∧ ')' ∉ p := by
  rcases s with _ | ⟨c1, _ | ⟨c2, cs⟩⟩
  · simp [matchAt] at h
  · simp [matchAt] at h
  · by_cases h1 : c1 = '!'
    · by_cases h2 : c2 = '['
      · subst h1
        subst h2
        simp only [matchAt, if_pos] at h
        obtain ⟨hcs, hna, hnp, hpp⟩ := findAlt_sound h
        subst hcs
        refine ⟨?_, hna, hnp, hpp⟩
        simp [mkImage]
      · simp [matchAt, h1, h2] at h
    · simp [matchAt, h1] at h

/-- Length bookkeeping of a successful match attempt. -/
theorem matchAt_length {s a p r : List Char} (h : matchAt s = some (a, p, r)) :
    s.length = a.length + p.length + 5 + r.length := by
  obtain ⟨hs, _, _, _⟩ := matchAt_sound h
  subst hs
  rw [List.length_append, mkImage_length]

/-- The lazy `alt` group of a successful match never contains the
two-character block `](` — otherwise the engine would have stopped
there, contradicting minimality. -/
theorem findAlt_alt_noSplit {cs a p r : List Char} (h : findAlt cs = some (a, p, r)) :
    ∀ a1 a2, a ≠ a1 ++ ']' :: '(' :: a2 := by
  intro a1 a2 hsplit
  obtain ⟨hcs, hna, hnp, _⟩ := findAlt_sound h
  obtain ⟨hna1, hna2'⟩ := nlFree_of_append (hsplit ▸ hna)
  obtain ⟨_, hna2''⟩ := nlFree_of_cons hna2'
  obtain ⟨_, hna2⟩ := nlFree_of_cons hna2''
  have hdecomp : cs = a1 ++ ']' :: '(' :: (a2 ++ ']' :: '(' :: p) ++ ')' :: r := by
    rw [hcs, hsplit]
    simp [List.append_assoc]
  have hnp2 : NlFree (a2 ++ ']' :: '(' :: p) :=
    nlFree_append hna2 (nlFree_cons (by decide) (nlFree_cons (by decide) hnp))
  have hmin := findAlt_min h a1 (a2 ++ ']' :: '(' :: p) r hdecomp hna1 hnp2
  rw [hsplit] at hmin
  simp only [List.length_append, List.length_cons] at hmin
  omega

/-- Exact rescan of a rebuilt image occurrence: with a split-free,
newline-free alt and a newline-free, `)`-free url, `findAlt` consumes
exactly the rebuilt block. -/
theorem findAlt_concat {a u X : List Char}
    (hns : ∀ a1 a2, a ≠ a1 ++ ']' :: '(' :: a2)
    (hna : NlFree a) (hnu : NlFree u) (hpu : ')' ∉ u) :
    findAlt (a ++ (']' :: '(' :: (u ++ ')' :: X))) = some (a, u, X) := by
  induction a with
  | nil =>
    simp only [List.nil_append]
    have hpc : probeClose (']' :: '(' :: (u ++ ')' :: X)) = findPath (u ++ ')' :: X) := by
      simp [probeClose]
    simp only [findAlt, hpc, findPath_concat hnu hpu]
  | cons c a ih =>
    have hprobe : probeClose (c :: (a ++ (']' :: '(' :: (u ++ ')' :: X)))) = none := by
      cases ha : a with
      | nil =>
        subst ha
        simp [probeClose]
      | cons d a' =>
        subst ha
        by_cases hc : c = ']'
        · by_cases hd : d = '('
          · subst hc
            subst hd
            exact absurd rfl (hns [] a')
          · simp [probeClose, hd]
        · simp [probeClose, hc]
    have hcnl : ¬ c = '\n' := (nlFree_of_cons hna).1
    have hns' : ∀ a1 a2, a ≠ a1 ++ ']' :: '(' :: a2 := by
      intro a1 a2 hsp
      exact hns (c :: a1) a2 (by rw [hsp]; rfl)
    have ih' := ih hns' (nlFree_of_cons hna).2
    simp only [List.cons_append]
    simp only [findAlt, hprobe, if_neg hcnl, ih', Option.map_some']

/-- Exact rescan of a rebuilt image occurrence at the match level. -/
theorem matchAt_mkImage {a u X : List Char}
    (hns : ∀ a1 a2, a ≠ a1 ++ ']' :: '(' :: a2)
    (hna : NlFree a) (hnu : NlFree u) (hpu : ')' ∉ u) :
    matchAt (mkImage a u ++ X) = some (a, u, X) := by
  have hshape : mkImage a u ++ X = '!' :: '[' :: (a ++ (']' :: '(' :: (u ++ ')' :: X))) := by
    simp [mkImage]
  rw [hshape]
  simp only [matchAt, if_pos]
  exact findAlt_concat hns hna hnu hpu

/-- Viability of a match attempt at the head of a string: the exact
characterization of `matchAt` success. -/
def Viable (s : List Char) : Prop :=
  ∃ a p r, s = mkImage a p ++ r ∧ NlFree a ∧ NlFree p

/-- Success of `matchAt` yields viability. -/
theorem viable_of_matchAt_some {s : List Char} {apr : List Char × List Char × List Char}
    (h : matchAt s = some apr) : Viable s := by
  obtain ⟨hs, hna, hnp, _⟩ := matchAt_sound (s := s) (a := apr.1) (p := apr.2.1) (r := apr.2.2)
    (by rw [h])
  exact ⟨apr.1, apr.2.1, apr.2.2, hs, hna, hnp⟩

/-- A viable position cannot fail to match. -/
theorem matchAt_ne_none_of_viable {s : List Char} (h : Viable s) : matchAt s ≠ none := by
  obtain ⟨a, p, r, hs, hna, hnp⟩ := h
  subst hs
  have hshape : mkImage a p ++ r = '!' :: '[' :: (a ++ (']' :: '(' :: (p ++ ')' :: r))) := by
    simp [mkImage]
  rw [hshape]
  intro hcon
  simp only [matchAt, if_pos] at hcon
  exact findAlt_none hcon a p r (by simp) hna hnp

/-- Failure of `matchAt` refutes viability. -/
theorem not_viable_of_matchAt_none {s : List Char} (h : matchAt s = none) : ¬ Viable s :=
  fun hv => matchAt_ne_none_of_viable hv h

/-! ## The rewrite loop as a single left-to-right scan -/

/-- Per-reference result as a function of the two match groups only: the
observable behaviour of `_process_single_image` under a configured
hosting destination (the span fields play no role in the produced
text). -/
def singleRes (env : ImgEnv) (alt path : List Char) : List Char :=
  processSingleImage env true ⟨0, 0, alt, path⟩

theorem processSingleImage_eq_singleRes (env : ImgEnv) (m : ImgMatch) :
    processSingleImage env true m = singleRes env m.alt m.path := rfl

/-- Scan-and-replace pass: the composition of `re.finditer` with the
descending-order splice loop, expressed as one left-to-right traversal
that replaces each match in place.  Fuel `cs.length` suffices. -/
def rewriteScan (f : List Char → List Char → List Char) : Nat → List Char → List Char
  | 0, cs => cs
  | _ + 1, [] => []
  | fuel + 1, c :: cs =>
    match matchAt (c :: cs) with
    | some (alt, path, rest) => f alt path ++ rewriteScan f fuel rest
    | none => c :: rewriteScan f fuel cs

theorem findImagesAux_nil (fuel pos : Nat) : findImagesAux fuel pos [] = [] := by
  cases fuel <;> simp [findImagesAux]

theorem findImagesAux_cons_some {s a p r : List Char} (fuel pos : Nat)
    (h : matchAt s = some (a, p, r)) :
    findImagesAux (fuel + 1) pos s =
      ⟨pos, pos + (a.length + p.length + 5), a, p⟩ ::
        findImagesAux fuel (pos + (a.length + p.length + 5)) r := by
  rcases s with _ | ⟨c, cs⟩
  · simp [matchAt] at h
  · simp [findImagesAux, h]

theorem findImagesAux_cons_none (fuel pos : Nat) {c : Char} {cs : List Char}
    (h : matchAt (c :: cs) = none) :
    findImagesAux (fuel + 1) pos (c :: cs) = findImagesAux fuel (pos + 1) cs := by
  simp [findImagesAux, h]

theorem rewriteScan_nil (f : List Char → List Char → List Char) (fuel : Nat) :
    rewriteScan f fuel [] = [] := by
  cases fuel <;> simp [rewriteScan]

theorem rewriteScan_cons_some {s a p r : List Char} (f : List Char → List Char → List Char)
    (fuel : Nat) (h : matchAt s = some (a, p, r)) :
    rewriteScan f (fuel + 1) s = f a p ++ rewriteScan f fuel r := by
  rcases s with _ | ⟨c, cs⟩
  · simp [matchAt] at h
  · simp [rewriteScan, h]

theorem rewriteScan_cons_none (f : List Char → List Char → List Char) (fuel : Nat)
    {c : Char} {cs : List Char} (h : matchAt (c :: cs) = none) :
    rewriteScan f (fuel + 1) (c :: cs) = c :: rewriteScan f fuel cs := by
  simp [rewriteScan, h]

/-- Unfolding the last (lowest-span) step of the descending splice
loop. -/
theorem rewriteDesc_append_single (pairs : List (ImgMatch × List Char)) (m : ImgMatch)
    (rep : List Char) (content : List Char) :
    rewriteDesc (pairs ++ [(m, rep)]) content =
      spliceAt (rewriteDesc pairs content) m.mstart m.mstop rep := by
  simp [rewriteDesc, List.foldl_append]

/-- Splicing a span that sits just after a known prefix replaces exactly
the middle segment. -/
theorem spliceAt_append_middle (ctx mid rep tail : List Char) :
    spliceAt (ctx ++ mid ++ tail) ctx.length (ctx.length + mid.length) rep
      = ctx ++ rep ++ tail := by
  unfold spliceAt
  have h1 : (ctx ++ mid ++ tail).take ctx.length = ctx := by
    rw [List.append_assoc]
    exact List.take_left ctx (mid ++ tail)
  have h2 : (ctx ++ mid ++ tail).drop (ctx.length + mid.length) = tail := by
    have h : ctx.length + mid.length = (ctx ++ mid).length := by simp
    rw [h]
    exact List.drop_left (ctx ++ mid) tail
  rw [h1, h2]

/-- Bridge: applying the descending-order splice loop of
`process_images` to the matches found after a fixed prefix is the same
as rewriting the suffix in one left-to-right scan. -/
theorem rewriteDesc_eq_rewriteScan (f : List Char → List Char → List Char) :
    ∀ fuel cs ctx, cs.length ≤ fuel →
      rewriteDesc (((findImagesAux fuel ctx.length cs).zip
          ((findImagesAux fuel ctx.length cs).map (fun m => f m.alt m.path))).reverse)
        (ctx ++ cs) = ctx ++ rewriteScan f fuel cs := by
  intro fuel
  induction fuel with
  | zero =>
    intro cs ctx hlen
    have hcs : cs = [] := List.length_eq_zero.mp (Nat.le_zero.mp hlen)
    subst hcs
    simp [findImagesAux, rewriteScan, rewriteDesc]
  | succ fuel ih =>
    intro cs ctx hlen
    rcases cs with _ | ⟨c, cs⟩
    · simp [findImagesAux_nil, rewriteScan_nil, rewriteDesc]
    · rcases hm : matchAt (c :: cs) with _ | ⟨a, p, r⟩
      · rw [findImagesAux_cons_none fuel ctx.length hm, rewriteScan_cons_none f fuel hm]
        have hlen' : cs.length ≤ fuel := by
          simp only [List.length_cons] at hlen
          omega
        have hctx : ctx.length + 1 = (ctx ++ [c]).length := by simp
        have hlist : ctx ++ c :: cs = (ctx ++ [c]) ++ cs := by simp
        rw [hlist, hctx, ih cs (ctx ++ [c]) hlen']
        simp
      · obtain ⟨hs, hna, hnp, hpp⟩ := matchAt_sound hm
        have hrlen : r.length ≤ fuel := by
          have := matchAt_length hm
          simp only [List.length_cons] at hlen this
          omega
        rw [findImagesAux_cons_some fuel ctx.length hm, rewriteScan_cons_some f fuel hm]
        rw [List.map_cons, List.zip_cons_cons, List.reverse_cons, rewriteDesc_append_single]
        have hpl : ctx.length + (a.length + p.length + 5) = (ctx ++ mkImage a p).length := by
          simp [mkImage_length]
        have hcontent : ctx ++ c :: cs = (ctx ++ mkImage a p) ++ r := by
          rw [hs, List.append_assoc]
        rw [hcontent, hpl, ih r (ctx ++ mkImage a p) hrlen]
        have hassoc : (ctx ++ mkImage a p) ++ rewriteScan f fuel r
            = ctx ++ mkImage a p ++ rewriteScan f fuel r := rfl
        rw [hassoc]
        have hsplice := spliceAt_append_middle ctx (mkImage a p) (f a p)
          (rewriteScan f fuel r)
        rw [mkImage_length] at hsplice
        rw [hpl] at hsplice
        dsimp only
        rw [hsplice]
        simp [List.append_assoc]

/-- The image relocation pipeline is the one-pass scan-and-replace with
the per-reference relocation results. -/
theorem process_images_eq_rewriteScan (env : ImgEnv) (content : List Char) :
    process_images env true true content
      = rewriteScan (singleRes env) content.length content := by
  have hbridge := rewriteDesc_eq_rewriteScan (singleRes env) content.length content []
    (le_refl _)
  simp only [List.nil_append, List.length_nil] at hbridge
  have hmap : (findImagesAux content.length 0 content).map (processSingleImage env true)
      = (findImagesAux content.length 0 content).map
          (fun m => singleRes env m.alt m.path) :=
    List.map_congr_left (fun m _ => rfl)
  unfold process_images findImages
  simp only [Bool.false_eq_true, if_false]
  by_cases hms : (findImagesAux content.length 0 content).isEmpty
  · have hnil : findImagesAux content.length 0 content = [] := List.isEmpty_iff.mp hms
    rw [hnil] at hbridge
    simp only [hms, if_true]
    simpa [rewriteDesc] using hbridge
  · simp only [hms, if_false]
    rw [hmap]
    exact hbridge

/-! ## Count preservation of the rewrite (towards C2) -/

/-- Dropping within the left part of an append. -/
theorem drop_append_of_le {u X : List Char} {i : Nat} (h : i ≤ u.length) :
    (u ++ X).drop i = u.drop i ++ X := by
  rw [List.drop_append_eq_append_drop, Nat.sub_eq_zero_of_le h, List.drop_zero]

/-- Replacement safety: on the groups of an actual match the replacement
function produces a rebuilt image occurrence whose url part is
newline-free and `)`-free. -/
def SafeRes (f : List Char → List Char → List Char) : Prop :=
  ∀ a p, NlFree a → NlFree p → ')' ∉ p →
    ∃ w, f a p = mkImage a w ∧ NlFree w ∧ ')' ∉ w

/-- The alt group of a successful match attempt contains no `](`. -/
theorem matchAt_noSplit {s a p r : List Char} (h : matchAt s = some (a, p, r)) :
    ∀ a1 a2, a ≠ a1 ++ ']' :: '(' :: a2 := by
  rcases s with _ | ⟨c1, _ | ⟨c2, cs⟩⟩
  · simp [matchAt] at h
  · simp [matchAt] at h
  · by_cases h1 : c1 = '!'
    · by_cases h2 : c2 = '['
      · subst h1
        subst h2
        simp only [matchAt, if_pos] at h
        exact findAlt_alt_noSplit h
      · simp [matchAt, h1, h2] at h
    · simp [matchAt, h1] at h

/-- Rewriting the suffix never creates a viable match at a position
where the original scan found none.  The hypothesis `Hu` records that
the original scan failed at every offset inside the prefix `u`. -/
theorem not_viable_rewriteScan {f : List Char → List Char → List Char}
    (hsafe : SafeRes f) :
    ∀ fuel cs u, cs.length ≤ fuel →
      (∀ i, i < u.length → ¬ Viable (List.drop i (u ++ cs))) →
      ∀ i, i < u.length → ¬ Viable (List.drop i (u ++ rewriteScan f fuel cs)) := by
  intro fuel
  induction fuel with
  | zero =>
    intro cs u hlen Hu i hi
    have hcs : cs = [] := List.length_eq_zero.mp (Nat.le_zero.mp hlen)
    subst hcs
    exact Hu i hi
  | succ fuel ih =>
    intro cs u hlen Hu i hi
    rcases cs with _ | ⟨c, cs⟩
    · rw [rewriteScan_nil]
      exact Hu i hi
    · rcases hm : matchAt (c :: cs) with _ | ⟨a, p, r⟩
      · rw [rewriteScan_cons_none f fuel hm]
        have hG : ∀ j, j < (u ++ [c]).length → ¬ Viable (List.drop j ((u ++ [c]) ++ cs)) := by
          intro j hj
          have hlist : (u ++ [c]) ++ cs = u ++ c :: cs := by simp
          rw [hlist]
          rcases Nat.lt_or_ge j u.length with hlt | hge
          · exact Hu j hlt
          · have hju : j = u.length := by
              simp only [List.length_append, List.length_cons, List.length_nil] at hj
              omega
            subst hju
            rw [List.drop_left]
            exact not_viable_of_matchAt_none hm
        have hlen' : cs.length ≤ fuel := by
          simp only [List.length_cons] at hlen
          omega
        have hres := ih cs (u ++ [c]) hlen' hG i
          (by simp only [List.length_append, List.length_cons, List.length_nil]; omega)
        have hlist2 : (u ++ [c]) ++ rewriteScan f fuel cs = u ++ c :: rewriteScan f fuel cs := by
          simp
        rw [hlist2] at hres
        exact hres
      · rw [rewriteScan_cons_some f fuel hm]
        obtain ⟨hs, hna, hnp, hpp⟩ := matchAt_sound hm
        obtain ⟨w, hfw, hnw, hpw⟩ := hsafe a p hna hnp hpp
        rw [hfw]
        intro hv
        obtain ⟨al, pi, rho, hdec, hnal, hnpi⟩ := hv
        rw [drop_append_of_le (le_of_lt hi)] at hdec
        have hu1 : 0 < (u.drop i).length := by
          rw [List.length_drop]
          omega
        have horig : ¬ Viable (u.drop i ++ c :: cs) := by
          have := Hu i hi
          rw [drop_append_of_le (le_of_lt hi)] at this
          exact this
        rcases List.append_eq_append_iff.mp hdec with ⟨t, hD, hX⟩ | ⟨t, hu1t, hrho⟩
        · -- the matched block extends past the prefix remainder `u.drop i`
          rcases hu1e : u.drop i with _ | ⟨x, u2'⟩
          · rw [hu1e] at hu1
            simp at hu1
          · rcases u2' with _ | ⟨y, u2⟩
            · -- one-character remainder: the second matched character
              -- would have to be both `[` (from the match) and `!` (head
              -- of the rebuilt image)
              rw [hu1e] at hD
              have hmk : mkImage al pi = x :: t := hD
              rw [mkImage] at hmk
              obtain ⟨hx, ht⟩ := cons_append_inj hmk
              have hX' : mkImage a w ++ rewriteScan f fuel r = t ++ rho := hX
              rw [← ht] at hX'
              rw [mkImage] at hX'
              obtain ⟨hbad, _⟩ := cons_append_inj hX'.symm
              exact absurd hbad (by decide)
            · -- remainder `x :: y :: u2`: build the viable match the
              -- original scan would have seen
              rw [hu1e] at hD horig
              have hmk : mkImage al pi = x :: y :: (u2 ++ t) := by
                rw [hD]
                simp
              rw [mkImage] at hmk
              obtain ⟨hx, hmk2⟩ := cons_append_inj hmk
              obtain ⟨hy, hmk3⟩ := cons_append_inj hmk2
              have hbody : NlFree (u2 ++ t) := by
                rw [← hmk3]
                exact nlFree_append (nlFree_append hnal
                  (nlFree_cons (by decide) (nlFree_cons (by decide) hnpi)))
                  (nlFree_cons (by decide) nlFree_nil)
              have hnu2 : NlFree u2 := (nlFree_of_append hbody).1
              apply horig
              refine ⟨u2 ++ '!' :: '[' :: a, p, r, ?_, ?_, hnp⟩
              · rw [hs, ← hx, ← hy]
                simp [mkImage, List.append_assoc]
              · exact nlFree_append hnu2 (nlFree_cons (by decide)
                  (nlFree_cons (by decide) hna))
        · -- the matched block lies inside the prefix remainder
          apply horig
          refine ⟨al, pi, t ++ c :: cs, ?_, hnal, hnpi⟩
          rw [hu1t, List.append_assoc]

/-- Count preservation: under a safe replacement function, the rewrite
leaves the number of embedded-image matches unchanged. -/
theorem count_preserved {f : List Char → List Char → List Char} (hsafe : SafeRes f) :
    ∀ fuel cs, cs.length ≤ fuel →
      ∀ fuel2 pos1 pos2, (rewriteScan f fuel cs).length ≤ fuel2 →
        (findImagesAux fuel2 pos2 (rewriteScan f fuel cs)).length
          = (findImagesAux fuel pos1 cs).length := by
  intro fuel
  induction fuel with
  | zero =>
    intro cs hlen fuel2 pos1 pos2 hlen2
    have hcs : cs = [] := List.length_eq_zero.mp (Nat.le_zero.mp hlen)
    subst hcs
    rw [rewriteScan_nil]
    simp [findImagesAux_nil]
  | succ fuel ih =>
    intro cs hlen fuel2 pos1 pos2 hlen2
    rcases cs with _ | ⟨c, cs⟩
    · rw [rewriteScan_nil] at hlen2 ⊢
      simp [findImagesAux_nil]
    · rcases hm : matchAt (c :: cs) with _ | ⟨a, p, r⟩
      · rw [rewriteScan_cons_none f fuel hm] at hlen2 ⊢
        have hlen' : cs.length ≤ fuel := by
          simp only [List.length_cons] at hlen
          omega
        have hmnone : matchAt (c :: rewriteScan f fuel cs) = none := by
          rcases hmm : matchAt (c :: rewriteScan f fuel cs) with _ | apr
          · rfl
          · exfalso
            have hH : ∀ j, j < ([c] : List Char).length →
                ¬ Viable (List.drop j ([c] ++ cs)) := by
              intro j hj
              have hj0 : j = 0 := by
                simp only [List.length_cons, List.length_nil] at hj
                omega
              subst hj0
              rw [List.drop_zero]
              exact not_viable_of_matchAt_none hm
            have hnv := not_viable_rewriteScan hsafe fuel cs [c] hlen' hH 0 (by simp)
            rw [List.drop_zero] at hnv
            exact hnv (viable_of_matchAt_some hmm)
        cases fuel2 with
        | zero =>
          simp at hlen2
        | succ fuel2 =>
          rw [findImagesAux_cons_none fuel2 pos2 hmnone,
            findImagesAux_cons_none fuel pos1 hm]
          have hlen2' : (rewriteScan f fuel cs).length ≤ fuel2 := by
            simp only [List.length_cons] at hlen2
            omega
          exact ih cs hlen' fuel2 (pos1 + 1) (pos2 + 1) hlen2'
      · rw [rewriteScan_cons_some f fuel hm] at hlen2 ⊢
        obtain ⟨hs, hna, hnp, hpp⟩ := matchAt_sound hm
        obtain ⟨w, hfw, hnw, hpw⟩ := hsafe a p hna hnp hpp
        have hns := matchAt_noSplit hm
        rw [hfw] at hlen2 ⊢
        have hmk := matchAt_mkImage (X := rewriteScan f fuel r) hns hna hnw hpw
        have hrlen : r.length ≤ fuel := by
          have hml := matchAt_length hm
          simp only [List.length_cons] at hlen hml
          omega
        cases fuel2 with
        | zero =>
          rw [List.length_append, mkImage_length] at hlen2
          omega
        | succ fuel2 =>
          rw [findImagesAux_cons_some fuel2 pos2 hmk, findImagesAux_cons_some fuel pos1 hm]
          simp only [List.length_cons]
          have hlen2' : (rewriteScan f fuel r).length ≤ fuel2 := by
            rw [List.length_append, mkImage_length] at hlen2
            omega
          have := ih r hrlen fuel2 (pos1 + (a.length + p.length + 5))
            (pos2 + (a.length + w.length + 5)) hlen2'
          omega

/-- Top-level count preservation for `findImages`. -/
theorem findImages_rewriteScan_length {f : List Char → List Char → List Char}
    (hsafe : SafeRes f) (content : List Char) :
    (findImages (rewriteScan f content.length content)).length
      = (findImages content).length := by
  unfold findImages
  exact count_preserved hsafe content.length content (le_refl _) _ 0 0 (le_refl _)

/-! ## Claim C2: partial-failure tolerance of the relocation pipeline -/

/-- Whether a reference fails one of its four steps: resolve bytes,
verify image, upload, extract the returned URL. -/
def imageFails (env : ImgEnv) (path : List Char) : Bool :=
  match resolvedBytes env path with
  | none => true
  | some d =>
    if env.verifyOk d = false then true
    else
      match env.upload d with
      | some (some _) => false
      | _ => true

/-- The URL returned by the hosting endpoint when all four steps
succeed. -/
def uploadedUrl (env : ImgEnv) (path : List Char) : Option (List Char) :=
  match resolvedBytes env path with
  | none => none
  | some d =>
    if env.verifyOk d = false then none
    else
      match env.upload d with
      | some (some u) => some u
      | _ => none

/-- A failing reference resolves to its original text. -/
theorem singleRes_of_fails {env : ImgEnv} {path : List Char} (alt : List Char)
    (h : imageFails env path = true) :
    singleRes env alt path = mkImage alt path := by
  unfold singleRes processSingleImage
  rcases hb : resolvedBytes env path with _ | d
  · simp [hb]
  · rcases hv : env.verifyOk d with _ | _
    · simp [hb, hv]
    · rcases hu : env.upload d with _ | u
      · simp [hb, hv, hu]
      · rcases u with _ | u
        · simp [hb, hv, hu]
        · exfalso
          simp [imageFails, hb, hv, hu] at h

/-- A successful reference resolves to its alt text around the uploaded
URL. -/
theorem singleRes_of_success {env : ImgEnv} {path : List Char} (alt : List Char)
    (h : imageFails env path = false) :
    ∃ u, uploadedUrl env path = some u ∧ singleRes env alt path = mkImage alt u := by
  unfold singleRes processSingleImage
  rcases hb : resolvedBytes env path with _ | d
  · exfalso
    simp [imageFails, hb] at h
  · rcases hv : env.verifyOk d with _ | _
    · exfalso
      simp [imageFails, hb, hv] at h
    · rcases hu : env.upload d with _ | u
      · exfalso
        simp [imageFails, hb, hv, hu] at h
      · rcases u with _ | u
        · exfalso
          simp [imageFails, hb, hv, hu] at h
        · exact ⟨u, by simp [uploadedUrl, hb, hv, hu], by simp [hb, hv, hu]⟩

/-- Safety of the hosting endpoint: every URL it returns is free of
newlines and closing parentheses. -/
def UrlSafe (env : ImgEnv) : Prop :=
  ∀ d u, env.upload d = some (some u) → NlFree u ∧ ')' ∉ u

/-- A safe hosting endpoint yields a safe per-reference replacement
function. -/
theorem safeRes_singleRes {env : ImgEnv} (h : UrlSafe env) : SafeRes (singleRes env) := by
  intro a p hna hnp hpp
  rcases hb : resolvedBytes env p with _ | d
  · exact ⟨p, singleRes_of_fails a (by simp [imageFails, hb]), hnp, hpp⟩
  · rcases hv : env.verifyOk d with _ | _
    · exact ⟨p, singleRes_of_fails a (by simp [imageFails, hb, hv]), hnp, hpp⟩
    · rcases hu : env.upload d with _ | u
      · exact ⟨p, singleRes_of_fails a (by simp [imageFails, hb, hv, hu]), hnp, hpp⟩
      · rcases u with _ | u
        · exact ⟨p, singleRes_of_fails a (by simp [imageFails, hb, hv, hu]), hnp, hpp⟩
        · refine ⟨u, ?_, (h d u hu).1, (h d u hu).2⟩
          simp [singleRes, processSingleImage, hb, hv, hu]

/-- A list splits into its passing and failing parts. -/
theorem length_filter_add_length_filter_not {α : Type} (l : List α) (q : α → Bool) :
    (l.filter q).length + (l.filter (fun x => !(q x))).length = l.length := by
  induction l with
  | nil => simp
  | cons x l ih =>
    rcases hx : q x with _ | _
    · simp [List.filter_cons, hx]
      omega
    · simp [List.filter_cons, hx]
      omega

/-- Hosting environment whose upload response carries a URL containing a
closing parenthesis — legal in real URLs, and the hosting boundary
places no constraint on the returned field. -/
def envAdversarialUrl : ImgEnv :=
  ⟨fun _ => false, id, fun _ => some [0], fun _ => none, fun _ => true,
    fun _ => some (some ("u)![x](y".toList))⟩

/-- C2 (counterexample).  The claim asserts that the total count of
image-syntax occurrences is unchanged by `process_images`; at the
single-reference body `![a](b)` with an upload that returns the URL
`u)![x](y`, the rewritten body `![a](u)![x](y)` contains two
image-syntax occurrences, so the count is not preserved. -/
theorem C2_count_counterexample :
    (findImages ("![a](b)".toList)).length = 1 ∧
    imageFails envAdversarialUrl ("b".toList) = false ∧
    (findImages (process_images envAdversarialUrl true true ("![a](b)".toList))).length = 2 := by
  refine ⟨by decide, by decide, ?_⟩
  decide

/-- Hosting environment for the witness: reads of path `d` fail, all
other references succeed and upload to the safe URL `u`. -/
def envMixedOutcome : ImgEnv :=
  ⟨fun _ => false, id,
    fun p => if p = "d".toList then none else some [1],
    fun _ => none, fun _ => true, fun _ => some (some ("u".toList))⟩

/-- C2 (amended).  For every body with N image references of which K
fail at one of the four per-reference steps (resolve bytes, verify
image, upload, extract returned URL), and a hosting endpoint whose
returned URLs contain no `)` and no newline, `process_images` rewrites
the body in one pass in which each failing reference's span stays
byte-identical to its original image-syntax text, each succeeding
reference's span becomes the image syntax around its uploaded URL
(N − K spans rewritten, K left as-is, `K + (N − K) = N`), and the total
count of image-syntax occurrences is unchanged; every reference
contributes its own outcome, so no failure aborts a sibling or the
overall call. -/
theorem C2_partial_failure_isolation (env : ImgEnv) (content : List Char)
    (hsafe : UrlSafe env) :
    process_images env true true content
        = rewriteScan (singleRes env) content.length content ∧
    (∀ m ∈ findImages content,
        (imageFails env m.path = true →
          singleRes env m.alt m.path = mkImage m.alt m.path) ∧
        (imageFails env m.path = false →
          ∃ u, uploadedUrl env m.path = some u ∧
            singleRes env m.alt m.path = mkImage m.alt u)) ∧
    ((findImages content).filter (fun m => imageFails env m.path)).length
        + ((findImages content).filter (fun m => !(imageFails env m.path))).length
        = (findImages content).length ∧
    (findImages (process_images env true true content)).length
        = (findImages content).length := by
  refine ⟨process_images_eq_rewriteScan env content, ?_, ?_, ?_⟩
  · intro m _
    exact ⟨fun h => singleRes_of_fails m.alt h, fun h => singleRes_of_success m.alt h⟩
  · exact length_filter_add_length_filter_not (findImages content) _
  · rw [process_images_eq_rewriteScan env content]
    exact findImages_rewriteScan_length (safeRes_singleRes hsafe) content

/-- Witness for C2 (amended) at a two-reference body where the second
reference fails resolution: N = 2, K = 1, and the count of image-syntax
occurrences is preserved. -/
theorem C2_partial_failure_isolation_witness :
    UrlSafe envMixedOutcome ∧
    (findImages ("![a](b) ![c](d)".toList)).length = 2 ∧
    ((findImages ("![a](b) ![c](d)".toList)).filter
        (fun m => imageFails envMixedOutcome m.path)).length = 1 ∧
    (findImages (process_images envMixedOutcome true true
        ("![a](b) ![c](d)".toList))).length
      = (findImages ("![a](b) ![c](d)".toList)).length := by
  have hsafe : UrlSafe envMixedOutcome := by
    intro d u h
    obtain rfl : ("u".toList : List Char) = u := by simpa [envMixedOutcome] using h
    constructor
    · intro c hc
      simp at hc
      subst hc
      decide
    · decide
  refine ⟨hsafe, by decide, by decide, ?_⟩
  exact (C2_partial_failure_isolation envMixedOutcome ("![a](b) ![c](d)".toList) hsafe).2.2.2

/-! ## Content sanitizer (`sanitize_content`, lines 246-255) and claim C3

The sanitizer performs `re.sub(r'<script.*?</script>', '', s)` and
`re.sub(r'<iframe.*?</iframe>', '', s)` with DOTALL and IGNORECASE, then
`re.sub(r'\n{3,}', '\n\n', s)`.  The tag patterns are lazy: a match
starting at an opening literal extends to the first case-insensitive
occurrence of the closing literal; with DOTALL the gap may span
newlines.  `re.sub` scans left to right, resuming after each removed
match, and advancing one character after a failed attempt. -/

/-- ASCII case fold on code points, the effect of `re.IGNORECASE` on the
letters of the patterns. -/
def lowerNat (n : Nat) : Nat := if 65 ≤ n ∧ n ≤ 90 then n + 32 else n

/-- Case-insensitive character comparison. -/
def eqCI (a b : Char) : Bool := lowerNat a.toNat = lowerNat b.toNat

/-- Case-insensitive literal prefix test. -/
def hasPrefixCI : List Char → List Char → Bool
  | [], _ => true
  | _ :: _, [] => false
  | p :: ps, c :: cs => if eqCI p c then hasPrefixCI ps cs else false

/-- Advance past the first case-insensitive occurrence of `pat` — the
lazy `.*?` (DOTALL) followed by the closing literal.  Returns the text
after that occurrence, or `none` when the literal never occurs. -/
def dropThroughCI (pat : List Char) : List Char → Option (List Char)
  | [] => none
  | c :: cs =>
    if hasPrefixCI pat (c :: cs) then some ((c :: cs).drop pat.length)
    else dropThroughCI pat cs

/-- One `re.sub(open + '.*?' + close, '', s)` pass: at each position, if
the opening literal matches case-insensitively and the closing literal
occurs later, remove through the close and resume after it (the
replacement is empty); otherwise emit the character and move on.  Fuel
`s.length` suffices. -/
def stripTagBlocks (openTag closeTag : List Char) : Nat → List Char → List Char
  | 0, cs => cs
  | _ + 1, [] => []
  | fuel + 1, c :: cs =>
    if hasPrefixCI openTag (c :: cs) then
      match dropThroughCI closeTag ((c :: cs).drop openTag.length) with
      | some rest => stripTagBlocks openTag closeTag fuel rest
      | none => c :: stripTagBlocks openTag closeTag fuel cs
    else c :: stripTagBlocks openTag closeTag fuel cs

/-- Replacement text of one maximal newline run under
`re.sub(r'\n{3,}', '\n\n', s)`. -/
def emitRun (k : Nat) : List Char :=
  if 3 ≤ k then ['\n', '\n'] else List.replicate k '\n'

/-- Newline-run collapsing: `k` counts the pending run of consecutive
newlines; the greedy `\n{3,}` consumes maximal runs, so each maximal run
of length at least three becomes exactly two newlines. -/
def collapseRuns : Nat → List Char → List Char
  | k, [] => emitRun k
  | k, c :: cs =>
    if c = '\n' then collapseRuns (k + 1) cs
    else emitRun k ++ c :: collapseRuns 0 cs

/-- The content sanitizer (lines 246-255): remove script blocks, then
iframe blocks, then collapse newline runs of length three or more to
exactly two. -/
def sanitize_content (content : List Char) : List Char :=
  let s1 := stripTagBlocks ("<script".toList) ("</script>".toList) content.length content
  let s2 := stripTagBlocks ("<iframe".toList) ("</iframe>".toList) s1.length s1
  collapseRuns 0 s2

/-- C3 (counterexample).  Sanitization is not idempotent: removing an
inner script block can splice the surrounding text into a new script
block.  On `<scr<script></script>ipt></script>` the first pass yields
`<script></script>` and the second pass yields the empty string. -/
theorem C3_sanitize_not_idempotent :
    sanitize_content ("<scr<script></script>ipt></script>".toList)
        = "<script></script>".toList ∧
    sanitize_content (sanitize_content ("<scr<script></script>ipt></script>".toList))
      ≠ sanitize_content ("<scr<script></script>ipt></script>".toList) := by
  constructor
  · decide
  · decide

/-- Case-insensitive occurrence of `pat` anywhere in `s`. -/
def occursCI (pat : List Char) : List Char → Bool
  | [] => hasPrefixCI pat []
  | c :: cs => hasPrefixCI pat (c :: cs) || occursCI pat cs

/-- A text free of the opening literal passes the strip unchanged. -/
theorem strip_of_not_occurs (openTag closeTag : List Char) :
    ∀ fuel cs, cs.length ≤ fuel → occursCI openTag cs = false →
      stripTagBlocks openTag closeTag fuel cs = cs := by
  intro fuel
  induction fuel with
  | zero =>
    intro cs _ _
    rfl
  | succ fuel ih =>
    intro cs hlen hocc
    rcases cs with _ | ⟨c, cs⟩
    · rfl
    · have hpre : hasPrefixCI openTag (c :: cs) = false := by
        unfold occursCI at hocc
        exact (Bool.or_eq_false_iff.mp hocc).1
      have hocc' : occursCI openTag cs = false := by
        unfold occursCI at hocc
        exact (Bool.or_eq_false_iff.mp hocc).2
      have hlen' : cs.length ≤ fuel := by
        simp only [List.length_cons] at hlen
        omega
      unfold stripTagBlocks
      rw [hpre]
      simp only [Bool.false_eq_true, if_false]
      rw [ih cs hlen' hocc']

/-- Absence of three consecutive newlines. -/
def noTriple : List Char → Bool
  | c1 :: c2 :: c3 :: cs =>
    if c1 = '\n' ∧ c2 = '\n' ∧ c3 = '\n' then false else noTriple (c2 :: c3 :: cs)
  | _ => true

theorem noTriple_cons_ne {c : Char} (hc : c ≠ '\n') (t : List Char) :
    noTriple (c :: t) = noTriple t := by
  rcases t with _ | ⟨d, _ | ⟨e, t⟩⟩
  · simp [noTriple]
  · simp [noTriple]
  · simp [noTriple, hc]

theorem noTriple_one_nl {c : Char} (hc : c ≠ '\n') (t : List Char) :
    noTriple ('\n' :: c :: t) = noTriple (c :: t) := by
  rcases t with _ | ⟨d, t⟩
  · simp [noTriple]
  · simp [noTriple, hc]

theorem noTriple_emitRun_prepend {k : Nat} {c : Char} (hc : c ≠ '\n') (t : List Char) :
    noTriple (emitRun k ++ c :: t) = noTriple (c :: t) := by
  unfold emitRun
  split
  · show noTriple ('\n' :: '\n' :: c :: t) = noTriple (c :: t)
    rw [show noTriple ('\n' :: '\n' :: c :: t) = noTriple ('\n' :: c :: t) by
      simp [noTriple, hc]]
    exact noTriple_one_nl hc t
  · rename_i hk
    rcases k with _ | _ | _ | k
    · simp
    · simpa using noTriple_one_nl hc t
    · show noTriple ('\n' :: '\n' :: c :: t) = noTriple (c :: t)
      rw [show noTriple ('\n' :: '\n' :: c :: t) = noTriple ('\n' :: c :: t) by
        simp [noTriple, hc]]
      exact noTriple_one_nl hc t
    · omega

/-- The collapsed text has no run of three newlines. -/
theorem noTriple_collapseRuns (s : List Char) : ∀ k, noTriple (collapseRuns k s) = true := by
  induction s with
  | nil =>
    intro k
    show noTriple (emitRun k) = true
    unfold emitRun
    split
    · decide
    · rename_i hk
      rcases k with _ | _ | _ | k
      · decide
      · decide
      · decide
      · omega
  | cons c cs ih =>
    intro k
    unfold collapseRuns
    by_cases hc : c = '\n'
    · simp only [hc, if_pos]
      exact ih (k + 1)
    · simp only [hc, Bool.false_eq_true, if_false, if_neg]
      rw [noTriple_emitRun_prepend hc, noTriple_cons_ne hc]
      exact ih 0

theorem noTriple_replicate_ge3 {k : Nat} (hk : 3 ≤ k) (x : List Char) :
    noTriple (List.replicate k '\n' ++ x) = false := by
  obtain ⟨j, rfl⟩ : ∃ j, k = j + 3 := ⟨k - 3, by omega⟩
  show noTriple (List.replicate (j + 3) '\n' ++ x) = false
  simp [List.replicate_succ, noTriple]

theorem emitRun_eq_replicate {k : Nat} (hk : k ≤ 2) :
    emitRun k = List.replicate k '\n' := by
  unfold emitRun
  rw [if_neg (by omega)]

/-- Collapsing is the identity on triple-free text. -/
theorem collapseRuns_eq_self : ∀ s k, noTriple (List.replicate k '\n' ++ s) = true →
    collapseRuns k s = List.replicate k '\n' ++ s := by
  intro s
  induction s with
  | nil =>
    intro k h
    have hk : k ≤ 2 := by
      by_contra hgt
      rw [noTriple_replicate_ge3 (by omega) []] at h
      cases h
    show emitRun k = _
    rw [emitRun_eq_replicate hk]
    simp
  | cons c cs ih =>
    intro k h
    unfold collapseRuns
    by_cases hc : c = '\n'
    · subst hc
      simp only [if_pos]
      have hlist : List.replicate k '\n' ++ '\n' :: cs = List.replicate (k + 1) '\n' ++ cs := by
        rw [List.replicate_succ' k '\n']
        simp
      rw [hlist] at h
      rw [ih (k + 1) h, hlist]
    · have hk : k ≤ 2 := by
        by_contra hgt
        rw [noTriple_replicate_ge3 (by omega) (c :: cs)] at h
        cases h
      have hcs : noTriple cs = true := by
        rw [← emitRun_eq_replicate hk, noTriple_emitRun_prepend hc,
          noTriple_cons_ne hc] at h
        exact h
      simp only [hc, Bool.false_eq_true, if_false, if_neg]
      rw [emitRun_eq_replicate hk]
      have := ih 0 (by simpa using hcs)
      simp only [List.replicate_zero, List.nil_append] at this
      rw [this]

/-- C3 (amended).  Content sanitization is idempotent on every input
whose sanitized form contains no case-insensitive occurrence of
`<script` or `<iframe`: a second pass then finds nothing to remove, and
the newline collapsing is idempotent because a collapsed text has no
run of three newlines.  (On inputs whose sanitized form does contain
such a marker — possible because removals can splice new markers
together — a second pass removes more.) -/
theorem C3_sanitize_idempotent_no_residual_marker (x : List Char)
    (hs : occursCI ("<script".toList) (sanitize_content x) = false)
    (hi : occursCI ("<iframe".toList) (sanitize_content x) = false) :
    sanitize_content (sanitize_content x) = sanitize_content x := by
  have hnt : noTriple (sanitize_content x) = true := by
    show noTriple (collapseRuns 0 _) = true
    exact noTriple_collapseRuns _ 0
  have h1 : stripTagBlocks ("<script".toList) ("</script>".toList)
      (sanitize_content x).length (sanitize_content x) = sanitize_content x :=
    strip_of_not_occurs _ _ _ _ (le_refl _) hs
  show collapseRuns 0
      (stripTagBlocks ("<iframe".toList) ("</iframe>".toList)
        (stripTagBlocks ("<script".toList) ("</script>".toList)
          (sanitize_content x).length (sanitize_content x)).length
        (stripTagBlocks ("<script".toList) ("</script>".toList)
          (sanitize_content x).length (sanitize_content x)))
    = sanitize_content x
  rw [h1]
  rw [strip_of_not_occurs _ _ _ _ (le_refl _) hi]
  have := collapseRuns_eq_self (sanitize_content x) 0 (by simpa using hnt)
  simpa using this

/-- Witness for C3 (amended): a marker-free input with a long newline
run. -/
theorem C3_sanitize_idempotent_no_residual_marker_witness :
    sanitize_content ("hello\n\n\n\nworld".toList) = "hello\n\nworld".toList ∧
    occursCI ("<script".toList) (sanitize_content ("hello\n\n\n\nworld".toList)) = false ∧
    sanitize_content (sanitize_content ("hello\n\n\n\nworld".toList))
      = sanitize_content ("hello\n\n\n\nworld".toList) := by
  refine ⟨by decide, by decide, ?_⟩
  exact C3_sanitize_idempotent_no_residual_marker ("hello\n\n\n\nworld".toList)
    (by decide) (by decide)

/-! ## Python values, frontmatter parsing and validation
(content_manager.py lines 39-94, 257-295) -/

/-- Python values manipulated by the embedded slice: YAML scalars,
sequences and mappings.  Mapping keys are modelled as strings, the shape
this pipeline's frontmatter uses. -/
inductive PyVal where
  | none
  | bool (b : Bool)
  | int (n : Int)
  | str (s : List Char)
  | list (xs : List PyVal)
  | dict (entries : List (List Char × PyVal))

/-- Python truthiness of the embedded values. -/
def pyFalsy : PyVal → Bool
  | .none => true
  | .bool b => !b
  | .int n => n == 0
  | .str s => s.isEmpty
  | .list xs => xs.isEmpty
  | .dict d => d.isEmpty

/-- Python `len`, raising `TypeError` on unsized values. -/
def pyLen : PyVal → Except PyExn Nat
  | .str s => .ok s.length
  | .list xs => .ok xs.length
  | .dict d => .ok d.length
  | _ => .error (.typeError "object has no len".toList)

/-- Python dict item assignment: an existing key is updated in place
(its position is preserved), a new key is appended at the end. -/
def dictSet (d : List (List Char × PyVal)) (k : List Char) (v : PyVal) :
    List (List Char × PyVal) :=
  match d with
  | [] => [(k, v)]
  | (k', v') :: rest => if k' = k then (k, v) :: rest else (k', v') :: dictSet rest k v

/-- Configuration surface consumed by the ContentManager (config.py). -/
structure Config where
  defaultLanguage : List Char
  supportedLanguages : List (List Char)
  minContentLength : Nat
  maxTitleLength : Nat
  maxSubtitleLength : Nat
  maxTags : Nat

/-- Primary language subtag: `language.split('-')[0]`. -/
def takeBeforeDash (s : List Char) : List Char := s.takeWhile (fun c => c ≠ '-')

/-- `validate_language` (lines 58-70) over the dynamic frontmatter
value: a falsy value yields the default; a truthy non-string raises
`AttributeError` on `.split`; a string is cut at its first hyphen,
case-folded, and silently replaced by the default when unsupported. -/
def validate_language (cfg : Config) (v : PyVal) : Except PyExn (List Char) :=
  if pyFalsy v then .ok cfg.defaultLanguage
  else
    match v with
    | .str s =>
      let l := (takeBeforeDash s).map Char.toLower
      .ok (if cfg.supportedLanguages.contains l then l else cfg.defaultLanguage)
    | _ => .error (.attributeError "split".toList)

/-- `validate_title` (lines 264-269): empty is rejected, then the
length bound is checked (`len` of an unsized value raises
`TypeError`). -/
def validate_title (cfg : Config) (v : PyVal) : Except PyExn Unit :=
  if pyFalsy v then .error (.valueError "Title cannot be empty".toList)
  else
    match pyLen v with
    | .error e => .error e
    | .ok n =>
      if n > cfg.maxTitleLength then
        .error (.valueError "Title exceeds maximum length".toList)
      else .ok ()

/-- `validate_subtitle` (lines 271-274): a falsy subtitle passes, a
truthy one is length-checked. -/
def validate_subtitle (cfg : Config) (v : PyVal) : Except PyExn Unit :=
  if pyFalsy v then .ok ()
  else
    match pyLen v with
    | .error e => .error e
    | .ok n =>
      if n > cfg.maxSubtitleLength then
        .error (.valueError "Subtitle exceeds maximum length".toList)
      else .ok ()

/-- Character class `[a-zA-Z0-9-]` of the tag pattern. -/
def allowedChar (c : Char) : Bool :=
  (decide ('a' ≤ c) && decide (c ≤ 'z')) || (decide ('A' ≤ c) && decide (c ≤ 'Z')) ||
    (decide ('0' ≤ c) && decide (c ≤ '9')) || decide (c = '-')

/-- Truth of `re.match(r'^[a-zA-Z0-9-]+$', tag)`.  The `$` anchor of a
pattern without `re.MULTILINE` matches at the end of the string and
also just before a single trailing newline, so an otherwise-allowed tag
followed by one `'\n'` is accepted. -/
def tagOk (t : List Char) : Bool :=
  (!t.isEmpty && t.all allowedChar) ||
    ((t.getLast? == some '\n') && !t.dropLast.isEmpty && t.dropLast.all allowedChar)

/-- One iteration of the tag loop: `re.match` demands a string argument
(`TypeError` otherwise) and a failed match raises `ValueError`. -/
def checkTagItem : PyVal → Except PyExn Unit
  | .str t =>
    if tagOk t then .ok () else .error (.valueError "Invalid tag format".toList)
  | _ => .error (.typeError "expected string or bytes-like object".toList)

/-- The tag loop stops at its first failing item. -/
def checkTagsSeq : List PyVal → Except PyExn Unit
  | [] => .ok ()
  | x :: xs =>
    match checkTagItem x with
    | .error e => .error e
    | .ok _ => checkTagsSeq xs

/-- `validate_tags` (lines 276-282) over the dynamic value: the count
bound first, then each iterated item is matched against the tag
pattern.  Iterating a string yields its characters as one-character
strings and iterating a dict yields its keys. -/
def validate_tags (cfg : Config) (v : PyVal) : Except PyExn Unit :=
  match pyLen v with
  | .error e => .error e
  | .ok n =>
    if n > cfg.maxTags then .error (.valueError "Maximum tags allowed".toList)
    else
      match v with
      | .list xs => checkTagsSeq xs
      | .str s => checkTagsSeq (s.map (fun c => .str [c]))
      | .dict d => checkTagsSeq (d.map (fun kv => .str kv.1))
      | _ => .error (.typeError "not iterable".toList)

/-- Key of the language field. -/
def langKey : List Char := "language".toList

/-- Python statement sequencing of a possibly-raising check: the raised
exception propagates, otherwise execution continues. -/
def requireOk {α : Type} (gate : Except PyExn Unit) (k : Except PyExn α) :
    Except PyExn α :=
  match gate with
  | .error e => .error e
  | .ok _ => k

/-- `validate_frontmatter` (lines 72-94) on a mapping: copy, set or
normalize `language`, then gate on title, subtitle and tags — the
checks read the copied mapping but only the language entry is ever
written. -/
def validate_frontmatter (cfg : Config) (fm : List (List Char × PyVal)) :
    Except PyExn (List (List Char × PyVal)) :=
  match
    (match fm.lookup langKey with
     | some v => (validate_language cfg v).map (fun l => dictSet fm langKey (.str l))
     | none => .ok (dictSet fm langKey (.str cfg.defaultLanguage))) with
  | .error e => .error e
  | .ok validated =>
    requireOk
      (match validated.lookup ("title".toList) with
       | some v => validate_title cfg v
       | none => .ok ())
      (requireOk
        (match validated.lookup ("subtitle".toList) with
         | some v => validate_subtitle cfg v
         | none => .ok ())
        (requireOk
          (match validated.lookup ("tags".toList) with
           | some v => validate_tags cfg v
           | none => .ok ())
          (.ok validated)))

/-- `validate_frontmatter` at the interpreter level: the first statement
`frontmatter.copy()` raises `AttributeError` on values without a `copy`
attribute (None, strings, numbers, booleans); a list has `copy` but the
following `validated['language']` item access or assignment raises
`TypeError`. -/
def validate_frontmatter_dyn (cfg : Config) (v : PyVal) : Except PyExn PyVal :=
  match v with
  | .dict entries => (validate_frontmatter cfg entries).map PyVal.dict
  | .list _ => .error (.typeError "list indices must be integers".toList)
  | _ => .error (.attributeError "copy".toList)

/-! ## Frontmatter parsing (`parse_frontmatter`, lines 39-56) -/

/-- Split at the first occurrence of the closing delimiter `\n---\n`:
the lazy interior group of `^---\n(.*?)\n---\n(.*)$` under DOTALL. -/
def findDelim : List Char → Option (List Char × List Char)
  | [] => none
  | c :: cs =>
    if ("\n---\n".toList).isPrefixOf (c :: cs) then some ([], (c :: cs).drop 5)
    else (findDelim cs).map (fun pr => (c :: pr.1, pr.2))

/-- Match of `re.match(r'^---\n(.*?)\n---\n(.*)$', content, re.DOTALL)`:
the document must begin with `---\n`; the lazy interior extends to the
first `\n---\n`; the greedy second group takes everything after it. -/
def splitFrontmatter (content : List Char) : Option (List Char × List Char) :=
  if ("---\n".toList).isPrefixOf content then findDelim (content.drop 4)
  else none

/-- The PyYAML boundary: `safeLoad` returns the decoded value or the
message of a raised `yaml.YAMLError`. -/
structure Yaml where
  safeLoad : List Char → Except (List Char) PyVal

/-- `parse_frontmatter` (lines 39-56): no frontmatter block returns an
empty mapping and the unchanged text; a block whose interior raises a
YAML error becomes `ContentValidationError`; any successfully decoded
value — mapping or not — is returned as-is with the remainder. -/
def parse_frontmatter (y : Yaml) (content : List Char) :
    Except PyExn (PyVal × List Char) :=
  match splitFrontmatter content with
  | none => .ok (.dict [], content)
  | some (interior, rest) =>
    match y.safeLoad interior with
    | .ok v => .ok (v, rest)
    | .error e =>
      .error (.contentValidationError ("Error parsing frontmatter: ".toList ++ e))

/-! ## File identity and reading (lines 257-262, 284-295) -/

/-- Names bound at module level of content_manager.py: its imports
(lines 1-17) and top-level bindings.  `os` is not among them — the
module never imports `os`. -/
def contentManagerGlobals : List (List Char) :=
  ["yaml".toList, "re".toList, "Dict".toList, "Any".toList, "Optional".toList,
   "List".toList, "Path".toList, "MarkdownIt".toList, "logging".toList,
   "datetime".toList, "urlparse".toList, "requests".toList, "aiohttp".toList,
   "asyncio".toList, "io".toList, "base64".toList, "Image".toList,
   "settings".toList, "Settings".toList, "PublishingError".toList,
   "ContentValidationError".toList, "logger".toList, "ContentManager".toList]

/-- Outcome of reading and decoding a file as UTF-8 text. -/
inductive ReadOutcome where
  | text (s : List Char)
  | notUtf8
  | ioError
deriving DecidableEq, Repr

/-- The filesystem boundary. -/
structure FsEnv where
  pathExists : List Char → Bool
  read : List Char → ReadOutcome

/-- `validate_file_path` (lines 257-262).  The first expression of the
body, `os.path.exists(file_path)`, resolves the name `os` against the
module globals; content_manager.py never imports `os`
(`contentManagerGlobals`), so every call raises `NameError` before any
filesystem check runs, and the intended existence/extension checks are
dead code. -/
def validate_file_path (fs : FsEnv) (file_path : List Char) : Except PyExn Unit :=
  if contentManagerGlobals.contains ("os".toList) then
    if fs.pathExists file_path = false then
      .error (.valueError ("File not found: ".toList ++ file_path))
    else if (".md".toList).isSuffixOf file_path = false then
      .error (.valueError "Only markdown (.md) files are supported".toList)
    else .ok ()
  else .error (.nameError "os".toList)

/-- ASCII whitespace of Python's `str.strip()` and `\s`. -/
def isPySpace (c : Char) : Bool :=
  c = ' ' || c = '\t' || c = '\n' || c = '\r' || c = '\x0b' || c = '\x0c'

/-- Python `str.strip()` (ASCII whitespace). -/
def stripWS (s : List Char) : List Char :=
  ((s.dropWhile isPySpace).reverse.dropWhile isPySpace).reverse

/-- `read_markdown_file` (lines 284-295): decode failures and empty
files raise `ValueError`; any other read error is wrapped into a
`ValueError` by the generic handler. -/
def read_markdown_file (fs : FsEnv) (p : List Char) : Except PyExn (List Char) :=
  match fs.read p with
  | .text s =>
    if (stripWS s).isEmpty then .error (.valueError "File is empty".toList) else .ok s
  | .notUtf8 => .error (.valueError "File must be UTF-8 encoded".toList)
  | .ioError => .error (.valueError "Error reading file".toList)

/-! ## Content validation (`validate_content`, lines 202-244) -/

/-- After `#` and at least one `\s`: the `.+$` part of
`re.search(r'^#\s+.+$', content, re.MULTILINE)` succeeds iff a
non-newline character is reachable through further whitespace (every
`.`-matched line then ends at `$`, which holds before any newline and
at the end). -/
def dotHere : List Char → Bool
  | [] => false
  | c :: cs => if c = '\n' then dotHere cs else true

/-- The `\s+.+$` part: at least one whitespace character, then a
non-newline character reachable through whitespace. -/
def spacesThenDot : List Char → Bool
  | [] => false
  | c :: cs => isPySpace c && dotHere cs

/-- A heading match starting at this position: `#` then `\s+.+$`. -/
def headingAt : List Char → Bool
  | c :: cs => c = '#' && spacesThenDot cs
  | [] => false

/-- MULTILINE `^`: try the heading match at position 0 and after every
newline. -/
def hasHeadingAux : Bool → List Char → Bool
  | _, [] => false
  | atStart, c :: cs => (atStart && headingAt (c :: cs)) || hasHeadingAux (c = '\n') cs

/-- Truth of `re.search(r'^#\s+.+$', content, re.MULTILINE)`. -/
def hasHeading (s : List Char) : Bool := hasHeadingAux true s

/-- Outcome of one probe `session.head(url, allow_redirects=True,
timeout=5)` followed by `response.raise_for_status()`: the request
succeeds; or it raises `aiohttp.ClientError` (connection failures and
the error statuses raised by `raise_for_status`) — the one class the
loop's `except` catches; or it exceeds its total timeout, which aiohttp
signals with a plain `asyncio.TimeoutError` that
`except aiohttp.ClientError` does not catch. -/
inductive ProbeRes where
  | ok
  | clientError
  | timeoutError
deriving DecidableEq, Repr

/-- The link-checking boundary: markdown-it link extraction
(`md.parse`, `link_open` tokens) and the HEAD probe of one URL. -/
structure LinkEnv where
  extractLinks : List Char → List (List Char)
  headOk : List Char → ProbeRes

/-- The probe loop of lines 234-242, paired with its call trace.  The
first component is the loop's outcome: `.ok true` when every probe
passes, `.ok false` at the first probe raising the caught
`aiohttp.ClientError` (the source's `return False`), and
`.error .timeoutError` at the first probe whose uncaught
`asyncio.TimeoutError` propagates out of the loop; the second records
which URLs the loop actually probed, in order. -/
def probeLoop (env : LinkEnv) : List (List Char) → Except PyExn Bool × List (List Char)
  | [] => (.ok true, [])
  | u :: us =>
    match env.headOk u with
    | .ok => ((probeLoop env us).1, u :: (probeLoop env us).2)
    | .clientError => (.ok false, [u])
    | .timeoutError => (.error .timeoutError, [u])

/-- `validate_content` (lines 202-244): length gate, structural heading
gate, then the sequential link probes; a timed-out probe raises out of
the function instead of producing a verdict. -/
def validate_content (cfg : Config) (env : LinkEnv) (content : List Char) :
    Except PyExn Bool :=
  if (stripWS content).length < cfg.minContentLength then .ok false
  else if hasHeading content = false then .ok false
  else (probeLoop env (env.extractLinks content)).1

/-- The URLs `validate_content` actually probes for a given body: none
when an earlier gate already failed, otherwise the loop's trace. -/
def probedLinks (cfg : Config) (env : LinkEnv) (content : List Char) : List (List Char) :=
  if (stripWS content).length < cfg.minContentLength then []
  else if hasHeading content = false then []
  else (probeLoop env (env.extractLinks content)).2

/-! ## The orchestrator (`process_markdown`, lines 297-343) -/

/-- Environment of one `process_markdown` call. -/
structure PmEnv where
  fs : FsEnv
  yaml : Yaml
  img : ImgEnv
  links : LinkEnv
  cfg : Config
  imageUploadUrlSet : Bool

/-- Lines 322-339, the stages after reading: parse frontmatter,
validate and normalize it, sanitize, optionally relocate images,
compute the advisory content verdict (consulted only by a log
statement; an exception raised inside `validate_content` propagates —
the trailing handler logs and re-raises), and return the pair. -/
def processParsedContent (env : PmEnv) (content : List Char) (uploadImages : Bool) :
    Except PyExn (PyVal × List Char) :=
  match parse_frontmatter env.yaml content with
  | .error e => .error e
  | .ok (fm, c1) =>
    match validate_frontmatter_dyn env.cfg fm with
    | .error e => .error e
    | .ok fm2 =>
      let c2 := sanitize_content c1
      let c3 := if uploadImages then process_images env.img true env.imageUploadUrlSet c2
                else c2
      match validate_content env.cfg env.links c3 with
      | .error e => .error e
      | .ok _verdict => .ok (fm2, c3)

/-- `process_markdown` (lines 297-343): validate the file path, read
the file, then process the content.  The trailing generic handler logs
and re-raises, leaving propagation unchanged. -/
def process_markdown (env : PmEnv) (file_path : List Char) (uploadImages : Bool) :
    Except PyExn (PyVal × List Char) :=
  match validate_file_path env.fs file_path with
  | .error e => .error e
  | .ok _ =>
    match read_markdown_file env.fs file_path with
    | .error e => .error e
    | .ok content => processParsedContent env content uploadImages

/-! ## Shared concrete environments for witnesses -/

/-- The configuration defaults of config.py. -/
def cfgDefault : Config := ⟨"en".toList, ["en".toList], 50, 100, 200, 5⟩

/-- An image environment in which every reference fails resolution. -/
def imgEnvNoop : ImgEnv :=
  ⟨fun _ => false, id, fun _ => none, fun _ => none, fun _ => false, fun _ => none⟩

/-- A link environment with no extracted links. -/
def linkEnvNoop : LinkEnv := ⟨fun _ => [], fun _ => .ok⟩

/-- An empty filesystem. -/
def fsEnvEmpty : FsEnv := ⟨fun _ => false, fun _ => .ioError⟩

/-- A filesystem containing exactly `article.md`. -/
def fsEnvArticle : FsEnv :=
  ⟨fun p => p == "article.md".toList, fun _ => .text ("# T".toList)⟩

/-- Yaml oracle reflecting PyYAML's documented behaviour on an empty or
comment-only document: `yaml.safe_load('')` is `None`. -/
def yamlBlankNone : Yaml := ⟨fun _ => .ok .none⟩

/-! ## Claim C4: file-identity validation -/

/-- Environment for exercising `process_markdown` on an existing
markdown file. -/
def pmEnvArticle : PmEnv :=
  ⟨fsEnvArticle, yamlBlankNone, imgEnvNoop, linkEnvNoop, cfgDefault, false⟩

/-- C4 (code bug).  The claim — and the module's own test
`test_validate_file_path` — expect a `ValueError` for a missing file or
wrong extension and success for an existing `.md` file; because
content_manager.py never imports `os`, `validate_file_path` raises
`NameError` on every input, valid paths included, so `process_markdown`
can never get past the file-identity stage. -/
theorem C4_validate_file_path_raises_name_error :
    validate_file_path fsEnvArticle ("nonexistent.md".toList)
        = .error (.nameError ("os".toList)) ∧
    validate_file_path fsEnvArticle ("article.md".toList)
        = .error (.nameError ("os".toList)) ∧
    process_markdown pmEnvArticle ("article.md".toList) true
        = .error (.nameError ("os".toList)) := by
  refine ⟨rfl, rfl, rfl⟩

/-! ## Claim C5: frontmatter decode failures -/

/-- A successful `findDelim` splits its input at the closing
delimiter. -/
theorem findDelim_sound {cs i r : List Char} (h : findDelim cs = some (i, r)) :
    cs = i ++ "\n---\n".toList ++ r := by
  induction cs generalizing i r with
  | nil => simp [findDelim] at h
  | cons c cs ih =>
    by_cases hp : ("\n---\n".toList).isPrefixOf (c :: cs) = true
    · obtain ⟨t, ht⟩ := (List.isPrefixOf_iff_prefix.mp hp)
      simp only [findDelim, hp, if_pos, Option.some_inj] at h
      obtain ⟨h1, h2⟩ : ([] : List Char) = i ∧ (c :: cs).drop 5 = r := by simpa using h
      subst h1
      have hdrop : (c :: cs).drop 5 = t := by
        rw [← ht]
        simp
      rw [← h2, hdrop, ← ht]
      simp
    · have hp' : ("\n---\n".toList).isPrefixOf (c :: cs) = false :=
        Bool.eq_false_iff.mpr hp
      simp only [findDelim, hp', Bool.false_eq_true, if_false, Option.map_eq_some'] at h
      obtain ⟨⟨i', r'⟩, hfd, heq⟩ := h
      obtain ⟨h1, h2⟩ : c :: i' = i ∧ r' = r := by simpa using heq
      subst h1
      subst h2
      rw [ih hfd]
      simp

/-- A successful `splitFrontmatter` decomposes the document into the
opening delimiter, the interior, the closing delimiter and the rest. -/
theorem splitFrontmatter_sound {content i r : List Char}
    (h : splitFrontmatter content = some (i, r)) :
    content = "---\n".toList ++ i ++ "\n---\n".toList ++ r := by
  unfold splitFrontmatter at h
  by_cases hp : ("---\n".toList).isPrefixOf content = true
  · obtain ⟨t, ht⟩ := (List.isPrefixOf_iff_prefix.mp hp)
    rw [hp] at h
    simp only [if_pos] at h
    have hdrop : content.drop 4 = t := by
      rw [← ht]
      simp
    rw [hdrop] at h
    rw [← ht, findDelim_sound h]
    simp
  · have hp' : ("---\n".toList).isPrefixOf content = false :=
      Bool.eq_false_iff.mpr hp
    rw [hp'] at h
    simp at h

/-- C5 (counterexample).  A document whose metadata interior is empty
decodes (per PyYAML) to `None`, which is not a key/value mapping, yet
`parse_frontmatter` raises nothing: it returns the decoded `None` with
the remainder, contradicting the claim that a non-mapping decode raises
a frontmatter error. -/
theorem C5_nonmapping_decode_counterexample :
    splitFrontmatter ("---\n\n---\nbody".toList) = some ([], "body".toList) ∧
    parse_frontmatter yamlBlankNone ("---\n\n---\nbody".toList)
      = .ok (.none, "body".toList) := by
  exact ⟨rfl, rfl⟩

/-- C5 (amended).  A document with no leading three-dash block returns
the empty mapping and the unchanged text; a document with such a block
whose interior raises a YAML parse error aborts with
`ContentValidationError` (so no partial metadata is returned); a
successfully decoded interior — mapping or not — raises no frontmatter
error. -/
theorem C5_frontmatter_error_behaviour (y : Yaml) (content : List Char) :
    (splitFrontmatter content = none →
      parse_frontmatter y content = .ok (.dict [], content)) ∧
    (∀ interior rest, splitFrontmatter content = some (interior, rest) →
      content = "---\n".toList ++ interior ++ "\n---\n".toList ++ rest ∧
      (∀ e, y.safeLoad interior = .error e →
        parse_frontmatter y content
          = .error (.contentValidationError
              ("Error parsing frontmatter: ".toList ++ e))) ∧
      (∀ v, y.safeLoad interior = .ok v →
        parse_frontmatter y content = .ok (v, rest))) := by
  constructor
  · intro h
    unfold parse_frontmatter
    rw [h]
  · intro interior rest h
    refine ⟨splitFrontmatter_sound h, ?_, ?_⟩
    · intro e he
      unfold parse_frontmatter
      rw [h]
      dsimp only
      rw [he]
    · intro v hv
      unfold parse_frontmatter
      rw [h]
      dsimp only
      rw [hv]

/-- Yaml oracle that fails on the malformed interior `a: [` with a
parse error, as PyYAML does. -/
def yamlErrOnBracket : Yaml :=
  ⟨fun s => if s = ("a: [".toList) then .error ("while parsing a flow node".toList)
            else .ok .none⟩

/-- Witness for C5 (amended): a block-free document passes through
unchanged, and a malformed interior aborts with
`ContentValidationError`. -/
theorem C5_frontmatter_error_behaviour_witness :
    parse_frontmatter yamlErrOnBracket ("# t".toList) = .ok (.dict [], "# t".toList) ∧
    parse_frontmatter yamlErrOnBracket ("---\na: [\n---\nb".toList)
      = .error (.contentValidationError
          ("Error parsing frontmatter: ".toList ++ "while parsing a flow node".toList)) := by
  constructor
  · exact (C5_frontmatter_error_behaviour yamlErrOnBracket ("# t".toList)).1 rfl
  · exact (((C5_frontmatter_error_behaviour yamlErrOnBracket
      ("---\na: [\n---\nb".toList)).2 ("a: [".toList) ("b".toList) rfl).2.1
        ("while parsing a flow node".toList) rfl)

/-! ## Claim C6: tag validation -/

/-- C6 (counterexample).  The tag `a\n` contains the disallowed
character `'\n'`, yet `validate_tags` accepts the list `['a\n']`: the
`$` anchor of `re.match(r'^[a-zA-Z0-9-]+$', tag)` matches just before a
single trailing newline. -/
theorem C6_trailing_newline_tag_counterexample :
    ("a\n".toList).all allowedChar = false ∧
    validate_tags cfgDefault (.list [.str ("a\n".toList)]) = .ok () := by
  exact ⟨by decide, rfl⟩

/-- The tag loop accepts exactly the lists whose members all match, and
any failure it reports is a `ValueError`. -/
theorem checkTagsSeq_ok_iff (tags : List (List Char)) :
    (checkTagsSeq (tags.map PyVal.str) = .ok () ↔ ∀ t ∈ tags, tagOk t = true) ∧
    (checkTagsSeq (tags.map PyVal.str) = .ok () ∨
      ∃ msg, checkTagsSeq (tags.map PyVal.str) = .error (.valueError msg)) := by
  induction tags with
  | nil => exact ⟨by simp [checkTagsSeq], Or.inl rfl⟩
  | cons t tags ih =>
    by_cases ht : tagOk t = true
    · constructor
      · rw [show checkTagsSeq ((t :: tags).map PyVal.str)
            = checkTagsSeq (tags.map PyVal.str) by
          simp [checkTagsSeq, checkTagItem, ht]]
        rw [ih.1]
        constructor
        · intro h t' ht'
          rcases List.mem_cons.mp ht' with rfl | ht'
          · exact ht
          · exact h t' ht'
        · intro h t' ht'
          exact h t' (List.mem_cons_of_mem t ht')
      · rw [show checkTagsSeq ((t :: tags).map PyVal.str)
            = checkTagsSeq (tags.map PyVal.str) by
          simp [checkTagsSeq, checkTagItem, ht]]
        exact ih.2
    · have ht' : tagOk t = false := by simpa using ht
      have hstep : checkTagsSeq ((t :: tags).map PyVal.str)
          = .error (.valueError ("Invalid tag format".toList)) := by
        simp [checkTagsSeq, checkTagItem, ht']
      constructor
      · rw [hstep]
        constructor
        · intro h
          cases h
        · intro h
          exact absurd (h t (List.mem_cons_self t tags)) (by simp [ht'])
      · exact Or.inr ⟨_, hstep⟩

/-- C6 (amended).  For tag lists within the configured maximum whose
members all satisfy the accepted pattern, validation succeeds (and,
returning `None`, leaves the list untouched); one extra tag, or any
member failing the pattern, raises `ValueError`.  The accepted pattern
is: entirely of allowed characters (nonempty), or such a tag followed
by exactly one trailing newline — the single disallowed character the
`$` anchor forgives. -/
theorem C6_tag_validation_characterization (cfg : Config) (tags : List (List Char)) :
    (validate_tags cfg (.list (tags.map PyVal.str)) = .ok ()
      ↔ tags.length ≤ cfg.maxTags ∧ ∀ t ∈ tags, tagOk t = true) ∧
    (∀ t : List Char, tagOk t = true
      ↔ ((!t.isEmpty && t.all allowedChar) = true
          ∨ ((t.getLast? == some '\n') && !t.dropLast.isEmpty
              && t.dropLast.all allowedChar) = true)) ∧
    (validate_tags cfg (.list (tags.map PyVal.str)) = .ok ()
      ∨ ∃ msg, validate_tags cfg (.list (tags.map PyVal.str))
          = .error (.valueError msg)) := by
  have hlen : pyLen (.list (tags.map PyVal.str)) = .ok tags.length := by
    simp [pyLen]
  refine ⟨?_, ?_, ?_⟩
  · unfold validate_tags
    rw [hlen]
    dsimp only
    by_cases hmax : tags.length > cfg.maxTags
    · rw [if_pos hmax]
      constructor
      · intro h
        cases h
      · intro h
        omega
    · rw [if_neg hmax]
      rw [(checkTagsSeq_ok_iff tags).1]
      constructor
      · intro h
        exact ⟨by omega, h⟩
      · intro h
        exact h.2
  · intro t
    unfold tagOk
    rw [Bool.or_eq_true]
  · unfold validate_tags
    rw [hlen]
    dsimp only
    by_cases hmax : tags.length > cfg.maxTags
    · rw [if_pos hmax]
      exact Or.inr ⟨_, rfl⟩
    · rw [if_neg hmax]
      exact (checkTagsSeq_ok_iff tags).2

/-! ## Claim C7: the content verdict is advisory -/

/-- C7.  For every document that reaches the content-check stage (its
frontmatter parsed and validated) and on which `validate_content`
returns its verdict, a false verdict does not change the outcome:
`process_markdown`'s post-read stages still return the processed
(normalized frontmatter, final body) pair — the verdict is consulted
only by a log statement. -/
theorem C7_content_verdict_advisory (env : PmEnv) (content : List Char)
    (uploadImages : Bool) (fm : PyVal) (c1 : List Char) (fm2 : PyVal)
    (hparse : parse_frontmatter env.yaml content = .ok (fm, c1))
    (hval : validate_frontmatter_dyn env.cfg fm = .ok fm2)
    (hverdict : validate_content env.cfg env.links
        (if uploadImages then
          process_images env.img true env.imageUploadUrlSet (sanitize_content c1)
         else sanitize_content c1) = .ok false) :
    processParsedContent env content uploadImages
      = .ok (fm2,
          if uploadImages then
            process_images env.img true env.imageUploadUrlSet (sanitize_content c1)
          else sanitize_content c1) := by
  unfold processParsedContent
  rw [hparse]
  dsimp only
  rw [hval]
  dsimp only
  rw [hverdict]

/-- Environment for the C7 witness. -/
def pmEnvPlain : PmEnv :=
  ⟨fsEnvEmpty, yamlBlankNone, imgEnvNoop, linkEnvNoop, cfgDefault, false⟩

/-- Witness for C7: the three-character body `# T` is far below the
50-character minimum, so the verdict is false, yet the processed pair
is returned. -/
theorem C7_content_verdict_advisory_witness :
    validate_content pmEnvPlain.cfg pmEnvPlain.links (sanitize_content ("# T".toList))
        = .ok false ∧
    processParsedContent pmEnvPlain ("# T".toList) false
      = .ok (.dict [(langKey, .str ("en".toList))], sanitize_content ("# T".toList)) := by
  constructor
  · rfl
  · have h := C7_content_verdict_advisory pmEnvPlain ("# T".toList) false
      (.dict []) ("# T".toList) (.dict [(langKey, .str ("en".toList))]) rfl rfl rfl
    simpa using h

/-! ## Claim C8: link probing stops at the first failure -/

/-- The loop passes unchanged over a prefix of passing probes. -/
theorem probeLoop_append_pass (env : LinkEnv) (pre rest : List (List Char))
    (hpre : ∀ v ∈ pre, env.headOk v = ProbeRes.ok) :
    probeLoop env (pre ++ rest)
      = ((probeLoop env rest).1, pre ++ (probeLoop env rest).2) := by
  induction pre with
  | nil => simp
  | cons v vs ih =>
    have hv : env.headOk v = ProbeRes.ok := hpre v (List.mem_cons_self v vs)
    have ih' := ih (fun w hw => hpre w (List.mem_cons_of_mem v hw))
    simp [probeLoop, hv, ih']

/-- The loop's outcome is the passing verdict iff every probe passes. -/
theorem probeLoop_ok_true_iff (env : LinkEnv) (urls : List (List Char)) :
    (probeLoop env urls).1 = .ok true
      ↔ ∀ u ∈ urls, env.headOk u = ProbeRes.ok := by
  induction urls with
  | nil => simp [probeLoop]
  | cons u us ih =>
    cases hu : env.headOk u with
    | ok => simp [probeLoop, hu, ih]
    | clientError => simp [probeLoop, hu]
    | timeoutError => simp [probeLoop, hu]

/-- The loop probes exactly the passing prefix plus the first failing
link. -/
theorem probeLoop_snd (env : LinkEnv) (urls : List (List Char)) :
    (probeLoop env urls).2
      = urls.takeWhile (fun u => env.headOk u == ProbeRes.ok)
          ++ (urls.drop
              (urls.takeWhile (fun u => env.headOk u == ProbeRes.ok)).length).take 1 := by
  induction urls with
  | nil => rfl
  | cons u us ih =>
    cases hu : env.headOk u with
    | ok => simp [probeLoop, hu, List.takeWhile_cons, ih]
    | clientError => simp [probeLoop, hu, List.takeWhile_cons]
    | timeoutError => simp [probeLoop, hu, List.takeWhile_cons]

/-- Body for the C8 counterexample: long enough and with a heading. -/
def bodyTwoLinks : List Char :=
  "# Title\nplenty of content follows here to pass the gate".toList

/-- Link environment in which the body has two links and only the first
probe fails, raising the caught `aiohttp.ClientError`. -/
def linkEnvFirstFails : LinkEnv :=
  ⟨fun c => if c = bodyTwoLinks then ["http://a".toList, "http://b".toList] else [],
   fun u => if u = "http://a".toList then .clientError else .ok⟩

/-- Link environment in which the body has two links and the first
probe exceeds its total timeout, raising the uncaught
`asyncio.TimeoutError`. -/
def linkEnvFirstTimesOut : LinkEnv :=
  ⟨fun c => if c = bodyTwoLinks then ["http://a".toList, "http://b".toList] else [],
   fun u => if u = "http://a".toList then .timeoutError else .ok⟩

/-- Orchestrator environment whose first link probe times out. -/
def pmEnvTimeout : PmEnv :=
  ⟨fsEnvEmpty, yamlBlankNone, imgEnvNoop, linkEnvFirstTimesOut, cfgDefault, false⟩

/-- C8 (counterexample).  The claim says one probe's failure does not
prevent the probing of the remaining (sibling) links and always folds
into the advisory verdict; in the code the loop returns `False` at the
first caught `aiohttp.ClientError`, so with two extracted links of
which the first fails, the second is never probed — and when the first
probe instead exceeds its timeout, the uncaught `asyncio.TimeoutError`
aborts `validate_content` (and the post-read stages with it), producing
no verdict at all. -/
theorem C8_sibling_probe_skipped_counterexample :
    ("http://b".toList ∈ linkEnvFirstFails.extractLinks bodyTwoLinks) ∧
    probedLinks cfgDefault linkEnvFirstFails bodyTwoLinks = ["http://a".toList] ∧
    ("http://b".toList ∉ probedLinks cfgDefault linkEnvFirstFails bodyTwoLinks) ∧
    validate_content cfgDefault linkEnvFirstFails bodyTwoLinks = .ok false ∧
    validate_content cfgDefault linkEnvFirstTimesOut bodyTwoLinks
      = .error .timeoutError ∧
    probedLinks cfgDefault linkEnvFirstTimesOut bodyTwoLinks = ["http://a".toList] ∧
    processParsedContent pmEnvTimeout bodyTwoLinks false = .error .timeoutError := by
  refine ⟨?_, rfl, ?_, rfl, rfl, rfl, rfl⟩
  · show "http://b".toList ∈
      (if bodyTwoLinks = bodyTwoLinks then ["http://a".toList, "http://b".toList] else [])
    rw [if_pos rfl]
    exact List.mem_cons_of_mem _ (List.mem_cons_self _ _)
  · intro hmem
    rw [show probedLinks cfgDefault linkEnvFirstFails bodyTwoLinks
        = ["http://a".toList] from rfl] at hmem
    simp at hmem

/-- C8 (amended).  `validate_content` probes the extracted links
sequentially in document order only up to and including the first
failing probe — links after the first failure are never probed.  A
probe raising `aiohttp.ClientError` (the one class the loop's `except`
catches) folds into the single advisory false verdict; a probe
exceeding its total timeout raises a plain `asyncio.TimeoutError` that
the `except` does not catch, so `validate_content` aborts with the
exception and produces no verdict at all.  When a verdict is produced,
it is true exactly when the length gate, the heading gate and every
probe pass. -/
theorem C8_link_probe_characterization (cfg : Config) (env : LinkEnv)
    (content : List Char) :
    (probedLinks cfg env content
      = if (stripWS content).length < cfg.minContentLength ∨ hasHeading content = false
        then []
        else (env.extractLinks content).takeWhile (fun u => env.headOk u == ProbeRes.ok)
          ++ ((env.extractLinks content).drop
              ((env.extractLinks content).takeWhile
                (fun u => env.headOk u == ProbeRes.ok)).length).take 1) ∧
    (validate_content cfg env content = .ok true
      ↔ cfg.minContentLength ≤ (stripWS content).length ∧ hasHeading content = true ∧
          ∀ u ∈ env.extractLinks content, env.headOk u = ProbeRes.ok) ∧
    (∀ pre u post,
      cfg.minContentLength ≤ (stripWS content).length →
      hasHeading content = true →
      env.extractLinks content = pre ++ u :: post →
      (∀ v ∈ pre, env.headOk v = ProbeRes.ok) →
      (env.headOk u = ProbeRes.clientError →
        validate_content cfg env content = .ok false ∧
        probedLinks cfg env content = pre ++ [u]) ∧
      (env.headOk u = ProbeRes.timeoutError →
        validate_content cfg env content = .error .timeoutError ∧
        probedLinks cfg env content = pre ++ [u])) := by
  refine ⟨?_, ?_, ?_⟩
  · unfold probedLinks
    by_cases hlen : (stripWS content).length < cfg.minContentLength
    · rw [if_pos hlen, if_pos (Or.inl hlen)]
    · rw [if_neg hlen]
      by_cases hh : hasHeading content = false
      · rw [if_pos hh, if_pos (Or.inr hh)]
      · rw [if_neg hh, if_neg (by
          intro hor
          rcases hor with h | h
          · exact hlen h
          · exact hh h)]
        exact probeLoop_snd env _
  · unfold validate_content
    by_cases hlen : (stripWS content).length < cfg.minContentLength
    · rw [if_pos hlen]
      constructor
      · intro h
        simp at h
      · intro h
        exact absurd h.1 (by omega)
    · rw [if_neg hlen]
      by_cases hh : hasHeading content = false
      · rw [if_pos hh]
        constructor
        · intro h
          simp at h
        · intro h
          rw [h.2.1] at hh
          cases hh
      · have hh' : hasHeading content = true := by
          cases hhh : hasHeading content
          · exact absurd hhh hh
          · rfl
        rw [if_neg hh]
        rw [probeLoop_ok_true_iff]
        constructor
        · intro h
          exact ⟨by omega, hh', h⟩
        · intro h
          exact h.2.2
  · intro pre u post hlen hhead hext hpre
    have hsplit := probeLoop_append_pass env pre (u :: post) hpre
    have hgate1 : ¬ (stripWS content).length < cfg.minContentLength := by omega
    have hgate2 : ¬ hasHeading content = false := by simp [hhead]
    constructor
    · intro hcl
      have h1 : (probeLoop env (u :: post)).1 = Except.ok false := by
        simp [probeLoop, hcl]
      have h2 : (probeLoop env (u :: post)).2 = [u] := by
        simp [probeLoop, hcl]
      constructor
      · unfold validate_content
        rw [if_neg hgate1, if_neg hgate2, hext, hsplit]
        exact h1
      · unfold probedLinks
        rw [if_neg hgate1, if_neg hgate2, hext, hsplit]
        rw [show (((probeLoop env (u :: post)).1,
            pre ++ (probeLoop env (u :: post)).2)).2
          = pre ++ (probeLoop env (u :: post)).2 from rfl, h2]
    · intro hto
      have h1 : (probeLoop env (u :: post)).1 = Except.error PyExn.timeoutError := by
        simp [probeLoop, hto]
      have h2 : (probeLoop env (u :: post)).2 = [u] := by
        simp [probeLoop, hto]
      constructor
      · unfold validate_content
        rw [if_neg hgate1, if_neg hgate2, hext, hsplit]
        exact h1
      · unfold probedLinks
        rw [if_neg hgate1, if_neg hgate2, hext, hsplit]
        rw [show (((probeLoop env (u :: post)).1,
            pre ++ (probeLoop env (u :: post)).2)).2
          = pre ++ (probeLoop env (u :: post)).2 from rfl, h2]

/-- Link environment in which the body has two links and only the
second probe fails with the caught `aiohttp.ClientError`. -/
def linkEnvSecondFails : LinkEnv :=
  ⟨fun c => if c = bodyTwoLinks then ["http://a".toList, "http://b".toList] else [],
   fun u => if u = "http://b".toList then .clientError else .ok⟩

/-- Witness for C8 (amended): with two links of which the second raises
the caught error, both are probed and the failure folds into the false
verdict. -/
theorem C8_link_probe_characterization_witness :
    validate_content cfgDefault linkEnvSecondFails bodyTwoLinks = .ok false ∧
    probedLinks cfgDefault linkEnvSecondFails bodyTwoLinks
      = ["http://a".toList, "http://b".toList] := by
  have h := ((C8_link_probe_characterization cfgDefault linkEnvSecondFails
      bodyTwoLinks).2.2 ["http://a".toList] ("http://b".toList) []
      (by decide) (by decide) rfl (by decide)).1 rfl
  exact ⟨h.1, by simpa using h.2⟩

/-! ## Claim C9: frontmatter validation only touches the language entry -/

/-- Looking up the written key of a dict assignment. -/
theorem lookup_dictSet_same (d : List (List Char × PyVal)) (k : List Char) (v : PyVal) :
    (dictSet d k v).lookup k = some v := by
  induction d with
  | nil => simp [dictSet, List.lookup]
  | cons hd tl ih =>
    obtain ⟨k0, v0⟩ := hd
    by_cases hk : k0 = k
    · subst hk
      simp [dictSet, List.lookup]
    · have hk2 : (k == k0) = false := by
        simp only [beq_eq_false_iff_ne, ne_eq]
        intro hcon
        exact hk hcon.symm
      simp [dictSet, hk, List.lookup, hk2, ih]

/-- Looking up any other key of a dict assignment. -/
theorem lookup_dictSet_other (d : List (List Char × PyVal)) (k k' : List Char) (v : PyVal)
    (hne : k' ≠ k) :
    (dictSet d k v).lookup k' = d.lookup k' := by
  induction d with
  | nil =>
    have hne2 : (k' == k) = false := by
      simp only [beq_eq_false_iff_ne, ne_eq]
      exact hne
    simp [dictSet, List.lookup, hne2]
  | cons hd tl ih =>
    obtain ⟨k0, v0⟩ := hd
    by_cases hk : k0 = k
    · subst hk
      have hne2 : (k' == k0) = false := by
        simp only [beq_eq_false_iff_ne, ne_eq]
        exact hne
      simp [dictSet, List.lookup, hne2]
    · simp [dictSet, hk, List.lookup, ih]

/-- Peeling one raising gate off a sequenced computation. -/
theorem requireOk_ok {α : Type} {gate : Except PyExn Unit} {k : Except PyExn α} {out : α}
    (h : requireOk gate k = .ok out) : k = .ok out := by
  rcases gate with e | u
  · exact absurd h (by simp [requireOk])
  · exact h

/-- A successful `validate_frontmatter` returns exactly the copied
input with the language entry written. -/
theorem validate_frontmatter_shape {cfg : Config} {fm out : List (List Char × PyVal)}
    (h : validate_frontmatter cfg fm = .ok out) :
    ∃ l : List Char, out = dictSet fm langKey (.str l) := by
  unfold validate_frontmatter at h
  rcases hl : fm.lookup langKey with _ | v
  · rw [hl] at h
    dsimp only at h
    have h2 := requireOk_ok (requireOk_ok (requireOk_ok h))
    exact ⟨cfg.defaultLanguage, by injection h2 with h2; exact h2.symm⟩
  · rw [hl] at h
    dsimp only at h
    rcases hv : validate_language cfg v with e | l
    · rw [hv] at h
      simp [Except.map] at h
    · rw [hv] at h
      dsimp only [Except.map] at h
      have h2 := requireOk_ok (requireOk_ok (requireOk_ok h))
      exact ⟨l, by injection h2 with h2; exact h2.symm⟩

/-- C9.  `validate_frontmatter` returns a new normalized mapping and —
being a pure function of its input in this embedding, as in the source,
which writes only to the `.copy()` — never mutates its argument; in the
returned mapping every key other than `language` maps to the same value
as in the input, and `language` is the only entry added or
normalized. -/
theorem C9_validate_frontmatter_frame (cfg : Config) (fm out : List (List Char × PyVal))
    (h : validate_frontmatter cfg fm = .ok out) :
    ∃ l : List Char,
      out = dictSet fm langKey (.str l) ∧
      out.lookup langKey = some (.str l) ∧
      ∀ k : List Char, k ≠ langKey → out.lookup k = fm.lookup k := by
  obtain ⟨l, rfl⟩ := validate_frontmatter_shape h
  exact ⟨l, rfl, lookup_dictSet_same fm langKey (.str l),
    fun k hk => lookup_dictSet_other fm langKey k (.str l) hk⟩

/-- Witness for C9 at a one-entry mapping: the title entry is preserved
and the language entry is added. -/
theorem C9_validate_frontmatter_frame_witness :
    validate_frontmatter cfgDefault [("title".toList, PyVal.str ("Hi".toList))]
      = .ok [("title".toList, PyVal.str ("Hi".toList)), (langKey, PyVal.str ("en".toList))] ∧
    ∃ l : List Char,
      ([("title".toList, PyVal.str ("Hi".toList)), (langKey, PyVal.str ("en".toList))]
          : List (List Char × PyVal))
        = dictSet [("title".toList, PyVal.str ("Hi".toList))] langKey (PyVal.str l) ∧
      (([("title".toList, PyVal.str ("Hi".toList)), (langKey, PyVal.str ("en".toList))]
          : List (List Char × PyVal))).lookup langKey = some (PyVal.str l) ∧
      ∀ k : List Char, k ≠ langKey →
        (([("title".toList, PyVal.str ("Hi".toList)), (langKey, PyVal.str ("en".toList))]
            : List (List Char × PyVal))).lookup k
          = (([("title".toList, PyVal.str ("Hi".toList))] : List (List Char × PyVal))).lookup k := by
  refine ⟨rfl, ?_⟩
  exact C9_validate_frontmatter_frame cfgDefault [("title".toList, PyVal.str ("Hi".toList))]
    [("title".toList, PyVal.str ("Hi".toList)), (langKey, PyVal.str ("en".toList))] rfl

/-! ## Claim C10: the blank-interior frontmatter block -/

/-- C10.  A document whose leading three-dash block has an empty
interior (such as `---\n\n---\nbody`) makes `parse_frontmatter` return
PyYAML's decode result `None` rather than a mapping; the subsequent
`validate_frontmatter` call then fails on `.copy()` with
`AttributeError`, and the pipeline neither returns an empty mapping nor
raises one of its typed errors for this input. -/
theorem C10_blank_interior_attribute_error (env : PmEnv)
    (hyaml : env.yaml.safeLoad [] = .ok .none) :
    parse_frontmatter env.yaml ("---\n\n---\nbody".toList) = .ok (.none, "body".toList) ∧
    validate_frontmatter_dyn env.cfg .none = .error (.attributeError ("copy".toList)) ∧
    processParsedContent env ("---\n\n---\nbody".toList) true
      = .error (.attributeError ("copy".toList)) := by
  have hparse : parse_frontmatter env.yaml ("---\n\n---\nbody".toList)
      = .ok (.none, "body".toList) := by
    unfold parse_frontmatter
    rw [show splitFrontmatter ("---\n\n---\nbody".toList)
        = some ([], "body".toList) from rfl]
    dsimp only
    rw [hyaml]
  refine ⟨hparse, rfl, ?_⟩
  unfold processParsedContent
  rw [hparse]
  rfl

/-- Witness for C10 with the concrete PyYAML-faithful oracle. -/
theorem C10_blank_interior_attribute_error_witness :
    parse_frontmatter pmEnvPlain.yaml ("---\n\n---\nbody".toList)
      = .ok (.none, "body".toList) ∧
    processParsedContent pmEnvPlain ("---\n\n---\nbody".toList) true
      = .error (.attributeError ("copy".toList)) := by
  have h := C10_blank_interior_attribute_error pmEnvPlain rfl
  exact ⟨h.1, h.2.2⟩

end PublishFlow

